import Mathlib

/-!
Shallow embedding of `src/python/gemini/graph.py` (the `gemini` graph stage of
the apollo pipeline): bucket building and element-id assignment
(`find_connected_components`, lines 58-129), the bucket-centric
connected-components traversal (lines 106-124), model construction and
serialization (`ConnectedComponentsModel`, `CommunitiesModel`), community
grouping and graph building (`detect_communities`, lines 170-239) and the
detector dispatch (`CommunityDetector`, lines 242-266).

Element keys (`row.sha1`) are Lean `String`s; band values (`row.value`,
bytes in Python) are modelled as `Nat`; dense ids, bucket ids and component
ids are `Nat`.  numpy `uint32` stores are modelled with an explicit
`% 2 ^ 32`.  Python dicts keyed by first insertion are modelled as
association lists / first-occurrence-ordered key lists.
-/

namespace Gemini

/-- One row of a hashtable: `(sha1, value)` as fetched by
`SELECT sha1, value FROM ... WHERE hashtable=...` (graph.py line 70). -/
structure Row where
  sha1 : String
  value : Nat
deriving DecidableEq, Repr

/-- `element_ids.setdefault(k, len(element_ids))` (graph.py line 74): return
the id already stored for `k`, or assign the next dense id (the current size
of the table).  The table is an insertion-ordered association list. -/
def setdefault (m : List (String × Nat)) (k : String) : Nat × List (String × Nat) :=
  match m.lookup k with
  | some v => (v, m)
  | none => (m.length, m ++ [(k, m.length)])

/-- The per-hashtable scan state of `find_connected_components` lines 65-82:
the shared id table, the closed buckets so far, the current band (initially
`None`) and the currently open bucket. -/
structure ScanState where
  ids : List (String × Nat)
  buckets : List (List Nat)
  band : Option Nat
  bucket : List Nat
deriving Repr

/-- One iteration of the row loop (graph.py lines 73-82): take the element's
id via `setdefault`; if the band value changed, flush the open bucket
(when a band was already open) and start a new bucket with this element;
otherwise append the element to the open bucket. -/
def scanRow (st : ScanState) (r : Row) : ScanState :=
  let p := setdefault st.ids r.sha1
  if some r.value ≠ st.band then
    { ids := p.2
      buckets := if st.band ≠ none then st.buckets ++ [st.bucket] else st.buckets
      band := some r.value
      bucket := [p.1] }
  else
    { st with ids := p.2, bucket := st.bucket ++ [p.1] }

/-- Scan of one hashtable's rows (graph.py lines 68-84): fold `scanRow`
starting from `band = None`, `bucket = []`, then flush the trailing open
bucket if non-empty (`if bucket: buckets.append(bucket)`). -/
def scanHashtable (ids : List (String × Nat)) (buckets : List (List Nat))
    (rows : List Row) : List (String × Nat) × List (List Nat) :=
  let st := rows.foldl scanRow { ids := ids, buckets := buckets, band := none, bucket := [] }
  (st.ids, if st.bucket ≠ [] then st.buckets ++ [st.bucket] else st.buckets)

/-- The whole bucket-building phase (graph.py lines 65-86): the hashtables
are processed in order, sharing one id table and one bucket list. -/
def buildBuckets (hashtables : List (List Row)) : List (String × Nat) × List (List Nat) :=
  hashtables.foldl (fun acc rows => scanHashtable acc.1 acc.2 rows) ([], [])

example :
    buildBuckets [[⟨"a", 7⟩, ⟨"b", 7⟩, ⟨"c", 9⟩], [⟨"c", 4⟩, ⟨"a", 4⟩]] =
      ([("a", 0), ("b", 1), ("c", 2)], [[0, 1], [2], [2, 0]]) := by decide

/-- The element keys (`row.sha1`) of all rows of all hashtables, in scan
order: the id table of `find_connected_components` is a function of this
key sequence alone. -/
def keysOf (hashtables : List (List Row)) : List String :=
  (hashtables.map fun rows => rows.map Row.sha1).flatten

/-- The id table after scanning a key sequence through `setdefault`. -/
def idsFold (ks : List String) : List (String × Nat) :=
  ks.foldl (fun m k => (setdefault m k).2) []

/-- The distinct keys of a key sequence in first-seen order. -/
def firstSeen (ks : List String) : List String :=
  ks.foldl (fun acc k => if k ∈ acc then acc else acc ++ [k]) []

/-- The association list pairing each key of a list with its position,
starting at `i`: the shape `element_ids` always has. -/
def enumIdsFrom (i : Nat) : List String → List (String × Nat)
  | [] => []
  | k :: ks => (k, i) :: enumIdsFrom (i + 1) ks

/-! ## Incidence index (graph.py lines 88-91)

`element_to_buckets[element].append(i)` for every element of bucket `i`. -/

/-- Append bucket index `i` to the incidence list of every element of
`bucket` (inner loop of graph.py lines 89-91). -/
def addBucket (e2b : List (List Nat)) (i : Nat) (bucket : List Nat) : List (List Nat) :=
  bucket.foldl (fun acc e => acc.set e (acc.getD e [] ++ [i])) e2b

/-- Process buckets `i, i+1, ...` into the incidence accumulator. -/
def buildE2B (e2b : List (List Nat)) (i : Nat) : List (List Nat) → List (List Nat)
  | [] => e2b
  | bucket :: rest => buildE2B (addBucket e2b i bucket) (i + 1) rest

/-- `element_to_buckets = [[] for _ in range(len(element_ids))]` then the
double loop of graph.py lines 88-91. -/
def elementToBuckets (n : Nat) (buckets : List (List Nat)) : List (List Nat) :=
  buildE2B (List.replicate n []) 0 buckets

example : elementToBuckets 3 [[0, 1], [2], [2, 0]] = [[0, 2], [0], [1, 2]] := by decide

/-! ## Connected-components traversal (graph.py lines 106-124)

The Python loop pops an arbitrary unvisited bucket to seed a component, then
runs a worklist: pop a pending bucket, record it in the current component,
and move every still-unvisited bucket sharing an element with it from the
unvisited set to the pending set.  Sets are modelled as lists popped at the
head (`set.pop` order is arbitrary in Python; the spec notes the order only
affects component numbering).  The element loop of lines 116-121 is collapsed
into one adjacency test `adj b b2` = "some element of `buckets[b]` has `b2`
in its incidence list", which is `sharesElem` below. -/

/-- `∃ element ∈ buckets[b1], b2 ∈ element_to_buckets[element]` as a Bool:
the test by which the traversal (graph.py lines 116-121) moves bucket `b2`
into the pending set while processing bucket `b1`. -/
def sharesElem (buckets e2b : List (List Nat)) (b1 b2 : Nat) : Bool :=
  (buckets.getD b1 []).any fun e => (e2b.getD e []).contains b2

/-- The inner worklist loop (graph.py lines 112-121), generic in the
adjacency test: state is (unvisited, pending, buckets of the current
component); each step pops a pending bucket, appends it to the component and
moves its unvisited neighbours to pending.  Returns the remaining unvisited
buckets and the component.  The loop runs at most `|unvisited| + |pending|`
iterations (each step pops one pending bucket and the moves preserve the
sum), so a fuel of at least that is never exhausted; callers supply it. -/
def ccInner (adj : Nat → Nat → Bool) : Nat → List Nat → List Nat → List Nat → List Nat × List Nat
  | _, U, [], comp => (U, comp)
  | 0, U, P, comp => (U, comp ++ P)
  | fuel + 1, U, b :: P, comp =>
      ccInner adj fuel (U.filter fun x => !adj b x) (P ++ U.filter fun x => adj b x) (comp ++ [b])

/-- The outer loop (graph.py lines 110-123): while unvisited buckets remain,
pop one to seed the pending set, run the inner worklist, emit the component
and continue; components are listed in discovery order, so the component at
position `cc` carries component id `cc`.  The inner call receives fuel
`|U| + 1`, which is always sufficient; the outer fuel must be at least
`|U|` (each round removes at least the seed). -/
def ccOuter (adj : Nat → Nat → Bool) : Nat → List Nat → List (List Nat)
  | _, [] => []
  | 0, _ :: _ => []
  | fuel + 1, u :: U =>
      (ccInner adj (U.length + 1) U [u] []).2 ::
        ccOuter adj fuel (ccInner adj (U.length + 1) U [u] []).1

/-- `unvisited_buckets = set(range(len(buckets)))` (line 106) and the whole
traversal: the list of connected components, each a list of bucket indices. -/
def findCCsFromBuckets (n : Nat) (B : List (List Nat)) : List (List Nat) :=
  ccOuter (sharesElem B (elementToBuckets n B)) B.length (List.range B.length)

/-- The element set of a component (`connected_components_element[cc_id]
.update(elements)`, line 115): all elements of the component's buckets. -/
def ccElems (B : List (List Nat)) (comp : List Nat) : List Nat :=
  (comp.map fun b => B.getD b []).flatten

example : findCCsFromBuckets 3 [[0, 1], [2], [2, 0]] = [[0, 2, 1]] := by decide
example : findCCsFromBuckets 4 [[0, 1], [2, 3]] = [[0], [1]] := by decide

/-! ## Spec-level connectivity

The specification's definition of the partition: two elements are in the
same component iff they are connected through a chain of shared buckets
(standard graph connectivity on the bipartite incidence graph). -/

/-- Two elements share a bucket. -/
def SharedBucket (B : List (List Nat)) (e1 e2 : Nat) : Prop :=
  ∃ b, b < B.length ∧ e1 ∈ B.getD b [] ∧ e2 ∈ B.getD b []

/-- Elements connected through a chain of shared-bucket relations. -/
def ElemConnected (B : List (List Nat)) : Nat → Nat → Prop :=
  Relation.ReflTransGen (SharedBucket B)

/-- Two buckets share an element (with both bucket indices in range). -/
def BucketAdj (B : List (List Nat)) (b1 b2 : Nat) : Prop :=
  b1 < B.length ∧ b2 < B.length ∧ ∃ e, e ∈ B.getD b1 [] ∧ e ∈ B.getD b2 []

/-- Buckets connected through chains of shared elements. -/
def BucketReach (B : List (List Nat)) : Nat → Nat → Prop :=
  Relation.ReflTransGen (BucketAdj B)

/-! ## `ConnectedComponentsModel.construct` (graph.py lines 24-41)

`id_to_cc = numpy.zeros(len(element_to_id), dtype=numpy.uint32)` and then
`id_to_cc[id_] = cc` for every id of every component; ids absent from every
component keep the zero initialisation.  The `connected_components` dict maps
component id (insertion order 0, 1, ...) to the component's element set; the
element set of component `cc` is `ccElems B comp`, possibly with duplicates,
which write the same value and so leave the array as the set would. -/

/-- The `id_to_cc` array of `ConnectedComponentsModel.construct`
(lines 25-28); `cc` values are stored as `uint32`. -/
def constructIdToCC (comps : List (List Nat)) (B : List (List Nat)) (n : Nat) : List Nat :=
  (comps.enum).foldl
    (fun arr p => (ccElems B p.2).foldl (fun a i => a.set i (p.1 % 2 ^ 32)) arr)
    (List.replicate n 0)

example : constructIdToCC (findCCsFromBuckets 4 [[0, 1], [2, 3]]) [[0, 1], [2, 3]] 5 =
    [0, 0, 1, 1, 0] := by decide

/-! ## `detect_communities` (graph.py lines 170-239)

The loaded model supplies `id_to_cc` and the CSR incidence matrix
(`indptr`, `indices`, with `total_nvertices = shape[0] = len(id_to_cc)`).
`ccs = defaultdict(list); for i, c in enumerate(id_to_cc): ccs[c].append(i)`
groups element ids by component id, keys in first-occurrence order, indices
ascending.  Components of size 1 are skipped, size 2 appended directly to
`communities`, the rest (`fat_ccs`) get a graph each; finally the detector
outputs are appended after the pairs. -/

/-- Insertion-ordered deduplication: the key order of a Python `defaultdict`
filled by a scan (the iteration order of `ccs.values()`), and likewise the
contents of the Python `set`s built by repeated `add` in `buildGraph`
(set iteration order is unspecified; only membership is used by claims). -/
def dedupAppend (l : List Nat) : List Nat :=
  l.foldl (fun acc x => if x ∈ acc then acc else acc ++ [x]) []

/-- The group of component `c`: all indices `i` with `id_to_cc[i] = c`, in
ascending order (the append order of the enumeration scan). -/
def ccGroup (idToCC : List Nat) (c : Nat) : List Nat :=
  (List.range idToCC.length).filter fun i => idToCC.getD i 0 == c

/-- `list(ccs.values())` of graph.py lines 174-176. -/
def groupByCC (idToCC : List Nat) : List (List Nat) :=
  (dedupAppend idToCC).map (ccGroup idToCC)

example : groupByCC [5, 7, 5, 5, 9] = [[0, 2, 3], [1], [4]] := by decide

/-- `vertices` lists with `len == 2` are appended to `communities` as they
are scanned (graph.py lines 191-193). -/
def pairCCs (idToCC : List Nat) : List (List Nat) :=
  (groupByCC idToCC).filter fun v => v.length == 2

/-- `fat_ccs` (graph.py lines 187-194): the components that are neither
skipped (size 1) nor emitted as pairs (size 2). -/
def fatCCs (idToCC : List Nat) : List (List Nat) :=
  (groupByCC idToCC).filter fun v => !(v.length == 1 || v.length == 2)

/-- The CSR row of element `i`: `buckindices[buckindptr[i]:buckindptr[i+1]]`
(graph.py lines 203-204 and 213-214). -/
def csrRow (indptr indices : List Nat) (i : Nat) : List Nat :=
  (List.range' (indptr.getD i 0) (indptr.getD (i + 1) 0 - indptr.getD i 0)).map
    fun j => indices.getD j 0

/-- `bucket_weights[0, bucket]`: the global column sum of the incidence
matrix at column `bucket` (graph.py line 200), i.e. the number of stored
incidences with that bucket id. -/
def bucketWeight (indices : List Nat) (bucket : Nat) : Nat :=
  indices.count bucket

/-- The column of bucket `b` of the transposed incidence matrix
(`buckmat_csc.indices[indptr[b]:indptr[b+1]]`, graph.py lines 216-217): all
elements whose row contains `b`, in ascending element order (scipy keeps
CSC/CSR indices sorted after `.T.tocsr()`). -/
def csrCol (indptr indices : List Nat) (total : Nat) (b : Nat) : List Nat :=
  (List.range total).filter fun i => (csrRow indptr indices i).contains b

/-- The graph handed to the detector: vertex names (IGraph vertex `name`
attributes are `str(...)` of these numbers; `int(name)` recovers them, so
they are kept as `Nat`), the edge list, and the edge weights of linear
mode. -/
structure CGraph where
  names : List Nat
  edges : List (Nat × Nat)
  weights : Option (List Nat)
deriving DecidableEq, Repr

/-- Graph construction for one fat component (graph.py lines 196-226).
Linear mode (lines 198-208): an edge per (element, bucket) incidence, the
bucket vertex offset by `total_nvertices`, weighted by the bucket's global
weight.  Quadratic mode (lines 209-221): collect the component's buckets,
expand each bucket's full global membership into a clique, then clear the
bucket set.  `add_vertices` receives `vertices + list(buckets)`. -/
def buildGraph (linear : Bool) (indptr indices : List Nat) (total : Nat)
    (vertices : List Nat) : CGraph :=
  if linear then
    let incid := vertices.flatMap fun i => (csrRow indptr indices i).map fun b => (i, b)
    { names := vertices ++ dedupAppend (incid.map fun p => p.2 + total)
      edges := incid.map fun p => (p.1, p.2 + total)
      weights := some (incid.map fun p => bucketWeight indices p.2) }
  else
    let buckets := dedupAppend (vertices.flatMap fun i => csrRow indptr indices i)
    { names := vertices
      edges := buckets.flatMap fun b =>
        let bv := csrCol indptr indices total b
        (List.range bv.length).flatMap fun i =>
          (bv.drop (i + 1)).map fun y => (bv.getD i 0, y)
      weights := none }

/-- The whole community stage (graph.py lines 174-239) with the community
detector abstracted as a function `D` from a graph to its list of vertex
groups (the igraph algorithms are external): pair components are appended
during the scan, then the detector outputs for the fat components are
appended in order (`communities.extend(...)`, lines 231-234). -/
def detectCommunitiesRun (D : CGraph → List (List Nat)) (linear : Bool)
    (idToCC indptr indices : List Nat) : List (List Nat) :=
  pairCCs idToCC ++
    ((fatCCs idToCC).map fun v =>
      D (buildGraph linear indptr indices idToCC.length v)).flatten

/-! ## `CommunityDetector` (graph.py lines 242-266)

`__init__` stores the algorithm name and config without any validation.
`__call__` resolves `getattr(graph, "community_" + algorithm)`, which
raises `AttributeError` when igraph's `Graph` has no such method; with a
valid name it runs the igraph algorithm (external; its result is abstracted
as a membership vector and cluster count) and regroups vertex names by
membership (lines 262-266) without filtering anything. -/

/-- Modelled from the external igraph library: the `community_*` methods of
`igraph.Graph`, i.e. the names for which the `getattr` of graph.py line 248
succeeds. -/
def igraphCommunityMethods : List String :=
  ["edge_betweenness", "fastgreedy", "infomap", "label_propagation",
   "leading_eigenvector", "leading_eigenvector_naive", "leiden", "multilevel",
   "optimal_modularity", "spinglass", "walktrap"]

/-- The two attributes stored by `CommunityDetector.__init__` (lines
243-245); the config is an opaque key/value list. -/
structure CommunityDetector where
  algorithm : String
  config : List (String × Nat)
deriving DecidableEq, Repr

/-- `CommunityDetector.__init__` (graph.py lines 243-245): stores the name
and config; no validation of the algorithm name happens here. -/
def communityDetectorInit (algorithm : String) (config : List (String × Nat)) :
    CommunityDetector :=
  { algorithm := algorithm, config := config }

/-- The failure raised by `getattr(graph, "community_" + algorithm)` for an
unknown algorithm name (graph.py line 248). -/
inductive DetectError where
  | attributeError (name : String)
deriving DecidableEq, Repr

/-- The regrouping loop of `CommunityDetector.__call__` (lines 262-264):
`output = [[] for _ in range(len(result.sizes()))]` then
`output[memb].append(int(graph.vs[i]["name"]))` for each vertex in order. -/
def detectorOutput (names membership : List Nat) (nclusters : Nat) : List (List Nat) :=
  (names.zip membership).foldl
    (fun out p => out.set p.2 (out.getD p.2 [] ++ [p.1]))
    (List.replicate nclusters [])

example : detectorOutput [4, 7, 9] [1, 0, 1] 2 = [[7], [4, 9]] := by decide

/-- `CommunityDetector.__call__` (lines 247-266): the `getattr` dispatch
fails for unknown names; otherwise the external algorithm's clustering
(membership vector and cluster count, supplied by `result`) is regrouped by
`detectorOutput`.  Errors therefore surface per graph, at call time. -/
def communityDetectorCall (d : CommunityDetector) (g : CGraph)
    (result : List Nat × Nat) : Except DetectError (List (List Nat)) :=
  if d.algorithm ∈ igraphCommunityMethods then
    .ok (detectorOutput g.names result.1 result.2)
  else
    .error (.attributeError ("community_" ++ d.algorithm))

/-- `detect_communities` with the error behaviour of the detector made
explicit: the detector object is built up front (line 228, no validation),
graphs are built for the fat components, and the detector is invoked once
per graph — any dispatch failure arises inside those per-graph calls
(`membOf` supplies the external algorithm's clustering per graph). -/
def detectCommunitiesChecked (algorithm : String) (config : List (String × Nat))
    (linear : Bool) (idToCC indptr indices : List Nat)
    (membOf : CGraph → List Nat × Nat) : Except DetectError (List (List Nat)) := do
  let detector := communityDetectorInit algorithm config
  let graphs := (fatCCs idToCC).map (buildGraph linear indptr indices idToCC.length)
  let outs ← graphs.mapM fun g => communityDetectorCall detector g (membOf g)
  pure (pairCCs idToCC ++ outs.flatten)

/-! ## Model serialization (graph.py lines 43-55 and 153-167)

The modelforge container format is an external collaborator; only the tree
contents produced by `_generate_tree` and consumed by `_load_tree` are code
of this repository.  `merge_strings` / `split_strings` and
`disassemble_sparse_matrix` / `assemble_sparse_matrix` live in modelforge. -/

/-- The CSR triple of the incidence matrix as held by
`ConnectedComponentsModel` (`data` is all ones and omitted; `indices` are
bucket ids, `indptr` the per-element offsets). -/
structure CSR where
  indices : List Nat
  indptr : List Nat
deriving DecidableEq, Repr

/-- Modelled from the spec: modelforge's `merge_strings` (outside `src/`,
§6 treats the container encoding as external); the spec requires only that
deserialization restores the identical string table, so the merged form is
the table itself behind a constructor. -/
structure MergedStrings where
  strs : List String
deriving DecidableEq, Repr

/-- Modelled from the spec: modelforge's `split_strings`, inverse of
`merge_strings`. -/
def split_strings (m : MergedStrings) : List String :=
  m.strs

/-- Modelled from the spec: modelforge's `disassemble_sparse_matrix`
(outside `src/`); the spec requires only that `assemble_sparse_matrix`
restores the identical matrix. -/
structure DisassembledCSR where
  mat : CSR
deriving DecidableEq, Repr

/-- Modelled from the spec: modelforge's `assemble_sparse_matrix`, inverse
of `disassemble_sparse_matrix`. -/
def assemble_sparse_matrix (d : DisassembledCSR) : CSR :=
  d.mat

/-- The in-memory state of a `ConnectedComponentsModel` (graph.py lines
24-47). -/
structure CCModelData where
  id_to_cc : List Nat
  id_to_element : List String
  id_to_buckets : CSR
deriving DecidableEq, Repr

/-- The tree of `ConnectedComponentsModel._generate_tree` (lines 53-55). -/
structure CCTree where
  cc : List Nat
  elements : MergedStrings
  buckets : DisassembledCSR
deriving DecidableEq, Repr

/-- `ConnectedComponentsModel._generate_tree` (lines 53-55). -/
def ccGenerateTree (m : CCModelData) : CCTree :=
  { cc := m.id_to_cc
    elements := ⟨m.id_to_element⟩
    buckets := ⟨m.id_to_buckets⟩ }

/-- `ConnectedComponentsModel._load_tree` (lines 43-47). -/
def ccLoadTree (t : CCTree) : CCModelData :=
  { id_to_cc := t.cc
    id_to_element := split_strings t.elements
    id_to_buckets := assemble_sparse_matrix t.buckets }

/-- The in-memory state of a `CommunitiesModel` (lines 148-156). -/
structure CommModelData where
  communities : List (List Nat)
  id_to_element : List String
deriving DecidableEq, Repr

/-- The tree of `CommunitiesModel._generate_tree` (lines 158-167): `data`
is a `uint32` array filled with the concatenated communities, `indptr` the
running offsets (`int64`; cumulative list lengths, which cannot overflow it,
so modelled as plain `Nat`). -/
structure CommTree where
  data : List Nat
  indptr : List Nat
  elements : MergedStrings
deriving DecidableEq, Repr

/-- The `indptr` offsets of `CommunitiesModel._generate_tree` (lines
161-166): `indptr[0] = 0` and `indptr[i+1] =` total length of the first
`i+1` communities. -/
def commIndptrTail (cs : List (List Nat)) (pos : Nat) : List Nat :=
  match cs with
  | [] => []
  | c :: rest => (pos + c.length) :: commIndptrTail rest (pos + c.length)

/-- `CommunitiesModel._generate_tree` (lines 158-167); community members
are stored `uint32`. -/
def commGenerateTree (m : CommModelData) : CommTree :=
  { data := (m.communities.flatten).map fun x => x % 2 ^ 32
    indptr := 0 :: commIndptrTail m.communities 0
    elements := ⟨m.id_to_element⟩ }

/-- `CommunitiesModel._load_tree` (lines 153-156):
`communities = [data[i:j] for i, j in zip(indptr, indptr[1:])]`. -/
def commLoadTree (t : CommTree) : CommModelData :=
  { communities := (t.indptr.zip t.indptr.tail).map fun p => (t.data.drop p.1).take (p.2 - p.1)
    id_to_element := split_strings t.elements }

example : commLoadTree (commGenerateTree ⟨[[3, 1], [2], [0, 4, 2]], ["x", "y"]⟩) =
    ⟨[[3, 1], [2], [0, 4, 2]], ["x", "y"]⟩ := by decide

/-! # Theorems -/

/-! ## Generic list lemmas -/

theorem getD_set_ne_nat (l : List Nat) (i j v : Nat) (h : i ≠ j) :
    (l.set i v).getD j 0 = l.getD j 0 := by
  simp only [List.getD_eq_getElem?_getD, List.getElem?_set_ne h]

theorem foldl_set_getD_of_not_mem (xs : List Nat) (e : Nat) (v : Nat) :
    ∀ arr : List Nat, e ∉ xs →
      (xs.foldl (fun a i => a.set i v) arr).getD e 0 = arr.getD e 0 := by
  induction xs with
  | nil => intro arr _; rfl
  | cons x xs ih =>
      intro arr hx
      rw [List.foldl_cons, ih (arr.set x v) (fun h => hx (List.mem_cons_of_mem _ h)),
        getD_set_ne_nat _ _ _ _ (fun h => hx (List.mem_cons.mpr (Or.inl h.symm)))]

/-! ## Elements of a component come from its buckets -/

theorem mem_ccElems (B : List (List Nat)) (comp : List Nat) (e : Nat) :
    e ∈ ccElems B comp ↔ ∃ b ∈ comp, e ∈ B.getD b [] := by
  simp [ccElems, List.mem_flatten]

/-- **C10**: an element id belonging to zero buckets is never visited by the
connected-components traversal (it appears in no component's element set),
and `ConnectedComponentsModel.construct` leaves its `id_to_cc` entry at the
zero-initialised value `0`, silently merging it with the first-discovered
component. -/
theorem zero_bucket_element_gets_component_zero (n : Nat) (B : List (List Nat)) (e : Nat)
    (he : e < n) (hb : ∀ b, e ∉ B.getD b []) :
    (∀ comp ∈ findCCsFromBuckets n B, e ∉ ccElems B comp) ∧
      (constructIdToCC (findCCsFromBuckets n B) B n).getD e 0 = 0 := by
  have hnot : ∀ comp : List Nat, e ∉ ccElems B comp := by
    intro comp hmem
    obtain ⟨b, _, hbmem⟩ := (mem_ccElems B comp e).1 hmem
    exact hb b hbmem
  refine ⟨fun comp _ => hnot comp, ?_⟩
  unfold constructIdToCC
  have hfold : ∀ (ps : List (Nat × List Nat)) (arr : List Nat),
      (ps.foldl (fun arr p => (ccElems B p.2).foldl
        (fun a i => a.set i (p.1 % 2 ^ 32)) arr) arr).getD e 0 = arr.getD e 0 := by
    intro ps
    induction ps with
    | nil => intro arr; rfl
    | cons p ps ih =>
        intro arr
        rw [List.foldl_cons, ih, foldl_set_getD_of_not_mem _ _ _ _ (hnot p.2)]
  rw [hfold]
  simp [List.getD_eq_getElem?_getD, List.getElem?_replicate, he]

theorem zero_bucket_element_gets_component_zero_witness :
    (3 < 4 ∧ ∀ b, 3 ∉ [[0, 1], [2]].getD b []) ∧
      ((∀ comp ∈ findCCsFromBuckets 4 [[0, 1], [2]], 3 ∉ ccElems [[0, 1], [2]] comp) ∧
        (constructIdToCC (findCCsFromBuckets 4 [[0, 1], [2]]) [[0, 1], [2]] 4).getD 3 0 = 0) :=
  ⟨⟨by decide, fun b => by
      match b with
      | 0 => decide
      | 1 => decide
      | n + 2 => simp [List.getD]⟩,
    zero_bucket_element_gets_component_zero 4 [[0, 1], [2]] 3 (by decide) (fun b => by
      match b with
      | 0 => decide
      | 1 => decide
      | n + 2 => simp [List.getD])⟩

/-! ## Unknown algorithm names are not rejected up front (C5) -/

/-- **C5 counterexample**: the unknown algorithm name `"bogus"` is accepted
by `CommunityDetector.__init__` (no validation, graph.py lines 243-245); on
an input whose components all have size ≤ 2 the whole community stage then
completes with `.ok` — no error is ever raised, so no `UnsupportedAlgorithm`
check runs before per-graph processing (and no such error class exists). -/
theorem unknown_algorithm_accepted_before_graphs :
    detectCommunitiesChecked "bogus" [] false [0, 1] [0, 0, 0] [] (fun _ => ([], 0)) =
        .ok [] ∧
      communityDetectorInit "bogus" [] = ⟨"bogus", []⟩ :=
  ⟨rfl, rfl⟩

/-- **C5 amended**: an unsupported algorithm name passes detector
construction unvalidated; the failure is an attribute-lookup error
(`AttributeError` on `community_<name>`, not an `UnsupportedAlgorithm`
class) raised inside each per-graph detector call, so it surfaces during
per-graph processing — and only if a size-≥3 component exists. -/
theorem unknown_algorithm_fails_per_graph (alg : String) (cfg : List (String × Nat))
    (linear : Bool) (idToCC indptr indices : List Nat) (membOf : CGraph → List Nat × Nat)
    (g : CGraph) (memb : List Nat × Nat) (h : alg ∉ igraphCommunityMethods) :
    communityDetectorInit alg cfg = ⟨alg, cfg⟩ ∧
      communityDetectorCall (communityDetectorInit alg cfg) g memb =
        .error (.attributeError ("community_" ++ alg)) ∧
      (fatCCs idToCC ≠ [] →
        detectCommunitiesChecked alg cfg linear idToCC indptr indices membOf =
          .error (.attributeError ("community_" ++ alg))) := by
  have hcall : ∀ (g' : CGraph) (memb' : List Nat × Nat),
      communityDetectorCall (communityDetectorInit alg cfg) g' memb' =
        .error (.attributeError ("community_" ++ alg)) := by
    intro g' memb'
    unfold communityDetectorCall communityDetectorInit
    simp [h]
  refine ⟨rfl, hcall g memb, fun hfat => ?_⟩
  unfold detectCommunitiesChecked
  rcases hcc : fatCCs idToCC with _ | ⟨v, rest⟩
  · exact absurd hcc hfat
  · simp only [List.map_cons, List.mapM_cons, hcall]
    rfl

theorem unknown_algorithm_fails_per_graph_witness :
    "bogus" ∉ igraphCommunityMethods ∧
      (communityDetectorInit "bogus" [] = ⟨"bogus", []⟩ ∧
        communityDetectorCall (communityDetectorInit "bogus" []) ⟨[], [], none⟩ ([], 0) =
          .error (.attributeError "community_bogus") ∧
        (fatCCs [0, 0, 0] ≠ [] →
          detectCommunitiesChecked "bogus" [] false [0, 0, 0] [0, 1, 2, 3] [0, 0, 0]
              (fun _ => ([], 0)) =
            .error (.attributeError "community_bogus"))) :=
  ⟨by decide, unknown_algorithm_fails_per_graph "bogus" [] false [0, 0, 0] [0, 1, 2, 3]
    [0, 0, 0] (fun _ => ([], 0)) ⟨[], [], none⟩ ([], 0) (by decide)⟩

/-! ## Synthetic bucket vertices are kept in the output (C3) -/

/-- **C3 counterexample**: linear mode on one size-3 component whose three
elements share bucket 0 (`total_nvertices = 3`).  The graph's vertices are
`[0, 1, 2, 3]` where `3 = 0 + total_nvertices` is the synthetic bucket
vertex; with a detector placing all vertices in one cluster the emitted
community is `[0, 1, 2, 3]` — the bucket vertex id is **not** dropped, so
the community does not contain only element ids (`< 3`). -/
theorem bucket_vertices_not_dropped :
    detectCommunitiesRun (fun g => [g.names]) true [0, 0, 0] [0, 1, 2, 3] [0, 0, 0] =
        [[0, 1, 2, 3]] ∧
      ¬ ∀ comm ∈ detectCommunitiesRun (fun g => [g.names]) true [0, 0, 0]
          [0, 1, 2, 3] [0, 0, 0], ∀ v ∈ comm, v < 3 :=
  ⟨by decide, by decide⟩

theorem flatten_set_append (x : Nat) :
    ∀ (out : List (List Nat)) (m : Nat), m < out.length →
      ((out.set m (out.getD m [] ++ [x])).flatten).Perm (out.flatten ++ [x]) := by
  intro out
  induction out with
  | nil => intro m hm; exact absurd hm (by simp)
  | cons c out ih =>
      intro m hm
      match m with
      | 0 =>
          simp only [List.set_cons_zero, List.getD_cons_zero, List.flatten_cons,
            List.append_assoc]
          exact List.Perm.append_left c List.perm_append_comm
      | Nat.succ m' =>
          simp only [List.set_cons_succ, List.getD_cons_succ, List.flatten_cons,
            List.append_assoc]
          exact List.Perm.append_left c (ih m' (by simpa using hm))

theorem detectorOutput_foldl_perm (pairs : List (Nat × Nat)) :
    ∀ out : List (List Nat), (∀ p ∈ pairs, p.2 < out.length) →
      ((pairs.foldl (fun out p => out.set p.2 (out.getD p.2 [] ++ [p.1])) out).flatten).Perm
        (out.flatten ++ pairs.map (fun p => p.1)) := by
  induction pairs with
  | nil => intro out _; simp
  | cons p ps ih =>
      intro out hlt
      rw [List.foldl_cons]
      have hlen : ∀ q ∈ ps, q.2 < (out.set p.2 (out.getD p.2 [] ++ [p.1])).length := by
        intro q hq
        rw [List.length_set]
        exact hlt q (List.mem_cons_of_mem _ hq)
      refine (ih _ hlen).trans ?_
      have h1 := flatten_set_append p.1 out p.2 (hlt p (List.mem_cons_self p ps))
      refine (List.Perm.append_right (ps.map fun p => p.1) h1).trans ?_
      rw [List.map_cons, List.append_assoc]
      exact List.Perm.append_left _ (List.perm_append_comm.trans (by simp))

/-- **C3 amended**: the regrouping loop of `CommunityDetector.__call__`
(graph.py lines 262-266) drops nothing: with a membership vector covering
every vertex (as igraph clusterings do), the concatenation of the returned
groups is a permutation of the graph's full vertex-name list — synthetic
bucket vertices of linear mode included. -/
theorem detector_output_keeps_all_names (names memb : List Nat) (ncl : Nat)
    (hlen : names.length ≤ memb.length) (hm : ∀ m ∈ memb, m < ncl) :
    ((detectorOutput names memb ncl).flatten).Perm names := by
  unfold detectorOutput
  have hlt : ∀ p ∈ names.zip memb, p.2 < (List.replicate ncl ([] : List Nat)).length := by
    intro p hp
    rw [List.length_replicate]
    exact hm p.2 (List.of_mem_zip hp).2
  refine (detectorOutput_foldl_perm (names.zip memb) _ hlt).trans ?_
  have hflat : (List.replicate ncl ([] : List Nat)).flatten = [] := by
    induction ncl with
    | zero => rfl
    | succ n ihn => simp [List.replicate_succ, ihn]
  rw [hflat, List.nil_append]
  have := List.map_fst_zip names memb hlen
  simp only [this]
  exact List.Perm.refl names

theorem detector_output_keeps_all_names_witness :
    ([0, 1, 2, 3].length ≤ [0, 1, 0, 1].length ∧ ∀ m ∈ [0, 1, 0, 1], m < 2) ∧
      ((detectorOutput [0, 1, 2, 3] [0, 1, 0, 1] 2).flatten).Perm [0, 1, 2, 3] :=
  ⟨⟨by decide, by decide⟩,
    detector_output_keeps_all_names [0, 1, 2, 3] [0, 1, 0, 1] 2 (by decide) (by decide)⟩

/-! ## The worklist traversal computes adjacency classes (C4)

`ccInner`/`ccOuter` are analysed generically in the adjacency test `adj`;
reachability is `Relation.ReflTransGen (fun a b => adj a b = true)`.  The
fuel arguments are shown never to run out for the amounts supplied by
`findCCsFromBuckets`. -/

theorem length_filter_split (l : List Nat) (p : Nat → Bool) :
    (l.filter fun x => !p x).length + (l.filter p).length = l.length := by
  induction l with
  | nil => rfl
  | cons a l ih => cases h : p a <;> simp [List.filter_cons, h, ← ih] <;> omega

theorem ccInner_sub (adj : Nat → Nat → Bool) :
    ∀ (fuel : Nat) (U P comp : List Nat), ∀ x ∈ (ccInner adj fuel U P comp).1, x ∈ U := by
  intro fuel
  induction fuel with
  | zero =>
      intro U P comp x hx
      cases P with
      | nil => exact hx
      | cons b P => exact hx
  | succ fuel ih =>
      intro U P comp x hx
      cases P with
      | nil => exact hx
      | cons b P =>
          simp only [ccInner] at hx
          exact List.mem_of_mem_filter (ih _ _ _ x hx)

theorem ccInner_fst_length (adj : Nat → Nat → Bool) :
    ∀ (fuel : Nat) (U P comp : List Nat),
      (ccInner adj fuel U P comp).1.length ≤ U.length := by
  intro fuel
  induction fuel with
  | zero =>
      intro U P comp
      cases P with
      | nil => exact Nat.le_refl _
      | cons b P => exact Nat.le_refl _
  | succ fuel ih =>
      intro U P comp
      cases P with
      | nil => exact Nat.le_refl _
      | cons b P =>
          simp only [ccInner]
          exact Nat.le_trans (ih _ _ _) (List.length_filter_le _ _)

theorem ccInner_fst_nodup (adj : Nat → Nat → Bool) :
    ∀ (fuel : Nat) (U P comp : List Nat), U.Nodup →
      (ccInner adj fuel U P comp).1.Nodup := by
  intro fuel
  induction fuel with
  | zero =>
      intro U P comp h
      cases P with
      | nil => exact h
      | cons b P => exact h
  | succ fuel ih =>
      intro U P comp h
      cases P with
      | nil => exact h
      | cons b P =>
          simp only [ccInner]
          exact ih _ _ _ (h.filter _)

theorem ccInner_mem_comp (adj : Nat → Nat → Bool) :
    ∀ (fuel : Nat) (U P comp : List Nat), U.length + P.length ≤ fuel →
      ∀ x, (x ∈ (ccInner adj fuel U P comp).2 ↔
        x ∈ comp ∨ x ∈ P ∨ (x ∈ U ∧ x ∉ (ccInner adj fuel U P comp).1)) := by
  intro fuel
  induction fuel with
  | zero =>
      intro U P comp hf x
      cases P with
      | nil => simp [ccInner]
      | cons b P =>
          exfalso
          simp only [List.length_cons] at hf
          omega
  | succ fuel ih =>
      intro U P comp hf x
      cases P with
      | nil => simp [ccInner]
      | cons b P =>
          simp only [ccInner]
          have hf' : (U.filter fun x => !adj b x).length +
              (P ++ U.filter fun x => adj b x).length ≤ fuel := by
            rw [List.length_append]
            have := length_filter_split U (fun x => adj b x)
            simp only [List.length_cons] at hf
            omega
          rw [ih _ _ _ hf' x]
          have hsub : ∀ y ∈ (ccInner adj fuel (U.filter fun x => !adj b x)
              (P ++ U.filter fun x => adj b x) (comp ++ [b])).1,
              y ∈ U.filter fun x => !adj b x := ccInner_sub adj fuel _ _ _
          constructor
          · rintro (hc | hp | ⟨hu, hnu⟩)
            · rcases List.mem_append.1 hc with h | h
              · exact Or.inl h
              · exact Or.inr (Or.inl (List.mem_cons.2 (Or.inl (List.mem_singleton.1 h))))
            · rcases List.mem_append.1 hp with h | h
              · exact Or.inr (Or.inl (List.mem_cons.2 (Or.inr h)))
              · exact Or.inr (Or.inr ⟨List.mem_of_mem_filter h, fun hmem => by
                  have h1 := List.of_mem_filter (hsub x hmem)
                  have h2 := List.of_mem_filter h
                  rw [h2] at h1
                  simp at h1⟩)
            · exact Or.inr (Or.inr ⟨List.mem_of_mem_filter hu, hnu⟩)
          · rintro (hc | hp | ⟨hu, hnu⟩)
            · exact Or.inl (List.mem_append.2 (Or.inl hc))
            · rcases List.mem_cons.1 hp with h | h
              · exact Or.inl (List.mem_append.2 (Or.inr (by simp [h])))
              · exact Or.inr (Or.inl (List.mem_append.2 (Or.inl h)))
            · by_cases hb : adj b x = true
              · exact Or.inr (Or.inl (List.mem_append.2 (Or.inr
                  (List.mem_filter.2 ⟨hu, hb⟩))))
              · exact Or.inr (Or.inr ⟨List.mem_filter.2 ⟨hu, by simp [hb]⟩, hnu⟩)

theorem ccInner_closed (adj : Nat → Nat → Bool) :
    ∀ (fuel : Nat) (U P comp : List Nat), U.length + P.length ≤ fuel →
      (∀ x ∈ U, ∀ c ∈ comp, adj c x = false) →
      ∀ x ∈ (ccInner adj fuel U P comp).1, ∀ c ∈ (ccInner adj fuel U P comp).2,
        adj c x = false := by
  intro fuel
  induction fuel with
  | zero =>
      intro U P comp hf hcl x hx c hc
      cases P with
      | nil => exact hcl x hx c hc
      | cons b P =>
          exfalso
          simp only [List.length_cons] at hf
          omega
  | succ fuel ih =>
      intro U P comp hf hcl x hx c hc
      cases P with
      | nil => exact hcl x hx c hc
      | cons b P =>
          simp only [ccInner] at hx hc
          have hf' : (U.filter fun x => !adj b x).length +
              (P ++ U.filter fun x => adj b x).length ≤ fuel := by
            rw [List.length_append]
            have := length_filter_split U (fun x => adj b x)
            simp only [List.length_cons] at hf
            omega
          refine ih _ _ _ hf' ?_ x hx c hc
          intro y hy c' hc'
          rcases List.mem_append.1 hc' with h | h
          · exact hcl y (List.mem_of_mem_filter hy) c' h
          · rw [List.mem_singleton.1 h]
            have := List.of_mem_filter hy
            simpa using this

theorem ccInner_reach (adj : Nat → Nat → Bool) (s : Nat) :
    ∀ (fuel : Nat) (U P comp : List Nat), U.length + P.length ≤ fuel →
      (∀ c ∈ comp, Relation.ReflTransGen (fun a b => adj a b = true) s c) →
      (∀ p ∈ P, Relation.ReflTransGen (fun a b => adj a b = true) s p) →
      ∀ c ∈ (ccInner adj fuel U P comp).2,
        Relation.ReflTransGen (fun a b => adj a b = true) s c := by
  intro fuel
  induction fuel with
  | zero =>
      intro U P comp hf hcomp hP c hc
      cases P with
      | nil => exact hcomp c hc
      | cons b P =>
          exfalso
          simp only [List.length_cons] at hf
          omega
  | succ fuel ih =>
      intro U P comp hf hcomp hP c hc
      cases P with
      | nil => exact hcomp c hc
      | cons b P =>
          simp only [ccInner] at hc
          have hf' : (U.filter fun x => !adj b x).length +
              (P ++ U.filter fun x => adj b x).length ≤ fuel := by
            rw [List.length_append]
            have := length_filter_split U (fun x => adj b x)
            simp only [List.length_cons] at hf
            omega
          refine ih _ _ _ hf' ?_ ?_ c hc
          · intro c' hc'
            rcases List.mem_append.1 hc' with h | h
            · exact hcomp c' h
            · rw [List.mem_singleton.1 h]
              exact hP b (List.mem_cons_self b P)
          · intro p hp
            rcases List.mem_append.1 hp with h | h
            · exact hP p (List.mem_cons_of_mem _ h)
            · exact Relation.ReflTransGen.tail (hP b (List.mem_cons_self b P))
                (List.of_mem_filter h)

theorem ccOuter_sub (adj : Nat → Nat → Bool) :
    ∀ (fuel : Nat) (U : List Nat), ∀ comp ∈ ccOuter adj fuel U, ∀ b ∈ comp, b ∈ U := by
  intro fuel
  induction fuel with
  | zero =>
      intro U comp hcomp
      cases U with
      | nil => simp [ccOuter] at hcomp
      | cons u U => simp [ccOuter] at hcomp
  | succ fuel ih =>
      intro U comp hcomp b hb
      cases U with
      | nil => simp [ccOuter] at hcomp
      | cons u U =>
          simp only [ccOuter] at hcomp
          rcases List.mem_cons.1 hcomp with h | h
          · subst h
            have hmem := (ccInner_mem_comp adj (U.length + 1) U [u] []
              (Nat.le_refl _) b).1 hb
            rcases hmem with h0 | h1 | ⟨hU, _⟩
            · simp at h0
            · simp at h1
              simp [h1]
            · exact List.mem_cons_of_mem _ hU
          · exact List.mem_cons_of_mem _ (ccInner_sub adj _ _ _ _ b (ih _ comp h b hb))

theorem ccOuter_cover (adj : Nat → Nat → Bool) :
    ∀ (fuel : Nat) (U : List Nat), U.length ≤ fuel →
      ∀ x ∈ U, ∃ comp ∈ ccOuter adj fuel U, x ∈ comp := by
  intro fuel
  induction fuel with
  | zero =>
      intro U hf x hx
      rw [Nat.le_zero, List.length_eq_zero] at hf
      subst hf
      simp at hx
  | succ fuel ih =>
      intro U hf x hx
      cases U with
      | nil => simp at hx
      | cons u U =>
          simp only [ccOuter]
          by_cases hx1 : x ∈ (ccInner adj (U.length + 1) U [u] []).1
          · have hf' : (ccInner adj (U.length + 1) U [u] []).1.length ≤ fuel := by
              have h1 := ccInner_fst_length adj (U.length + 1) U [u] []
              simp only [List.length_cons] at hf
              omega
            obtain ⟨comp, hcomp, hxc⟩ := ih _ hf' x hx1
            exact ⟨comp, List.mem_cons_of_mem _ hcomp, hxc⟩
          · refine ⟨(ccInner adj (U.length + 1) U [u] []).2,
              List.mem_cons_self _ _, ?_⟩
            rw [ccInner_mem_comp adj (U.length + 1) U [u] [] (Nat.le_refl _) x]
            rcases List.mem_cons.1 hx with h | h
            · exact Or.inr (Or.inl (by simp [h]))
            · exact Or.inr (Or.inr ⟨h, hx1⟩)

theorem ccOuter_seed_reach (adj : Nat → Nat → Bool) :
    ∀ (fuel : Nat) (U : List Nat), ∀ comp ∈ ccOuter adj fuel U,
      ∃ s, ∀ c ∈ comp, Relation.ReflTransGen (fun a b => adj a b = true) s c := by
  intro fuel
  induction fuel with
  | zero =>
      intro U comp hcomp
      cases U with
      | nil => simp [ccOuter] at hcomp
      | cons u U => simp [ccOuter] at hcomp
  | succ fuel ih =>
      intro U comp hcomp
      cases U with
      | nil => simp [ccOuter] at hcomp
      | cons u U =>
          simp only [ccOuter] at hcomp
          rcases List.mem_cons.1 hcomp with h | h
          · subst h
            refine ⟨u, ccInner_reach adj u (U.length + 1) U [u] [] (Nat.le_refl _)
              (by simp) ?_⟩
            intro p hp
            rw [List.mem_singleton.1 hp]
          · exact ih _ comp h

/-- Everything reachable from the seed ends up in the seed's component,
provided nothing in the current unvisited set is adjacent to anything
outside it. -/
theorem ccRound_complete (adj : Nat → Nat → Bool)
    (Hsym : ∀ a b, adj a b = adj b a) (u : Nat) (U : List Nat)
    (hInv : ∀ x ∈ u :: U, ∀ y, y ∉ u :: U → adj y x = false) :
    ∀ b, Relation.ReflTransGen (fun a b => adj a b = true) u b →
      b ∈ (ccInner adj (U.length + 1) U [u] []).2 := by
  intro b hreach
  induction hreach with
  | refl =>
      rw [ccInner_mem_comp adj (U.length + 1) U [u] [] (Nat.le_refl _)]
      exact Or.inr (Or.inl (List.mem_singleton.2 rfl))
  | tail hr hadj ihb =>
      rename_i b₀ c
      by_contra hc
      by_cases hcU' : c ∈ (ccInner adj (U.length + 1) U [u] []).1
      · have hcl := ccInner_closed adj (U.length + 1) U [u] [] (Nat.le_refl _)
          (by intro x _ c' hc'; simp at hc') c hcU' b₀ ihb
        rw [hadj] at hcl
        exact Bool.noConfusion hcl
      · by_cases hcin : c ∈ u :: U
        · apply hc
          rw [ccInner_mem_comp adj (U.length + 1) U [u] [] (Nat.le_refl _)]
          rcases List.mem_cons.1 hcin with h | h
          · exact Or.inr (Or.inl (by simp [h]))
          · exact Or.inr (Or.inr ⟨h, hcU'⟩)
        · have hb₀ : b₀ ∈ u :: U := by
            have hmem := (ccInner_mem_comp adj (U.length + 1) U [u] []
              (Nat.le_refl _) b₀).1 ihb
            rcases hmem with h0 | h1 | ⟨hU, _⟩
            · simp at h0
            · simp at h1
              simp [h1]
            · exact List.mem_cons_of_mem _ hU
          have := hInv b₀ hb₀ c hcin
          rw [Hsym b₀ c, this] at hadj
          exact Bool.noConfusion hadj

/-- The closure invariant ("no unvisited bucket is adjacent to anything
outside the unvisited set") survives one round of the outer loop. -/
theorem ccRound_inv (adj : Nat → Nat → Bool) (u : Nat) (U : List Nat)
    (hInv : ∀ x ∈ u :: U, ∀ y, y ∉ u :: U → adj y x = false) :
    ∀ x ∈ (ccInner adj (U.length + 1) U [u] []).1, ∀ y,
      y ∉ (ccInner adj (U.length + 1) U [u] []).1 → adj y x = false := by
  intro x hx y hy
  by_cases hycomp : y ∈ (ccInner adj (U.length + 1) U [u] []).2
  · exact ccInner_closed adj (U.length + 1) U [u] [] (Nat.le_refl _)
      (by intro x' _ c' hc'; simp at hc') x hx y hycomp
  · by_cases hyin : y ∈ u :: U
    · exfalso
      apply hycomp
      rw [ccInner_mem_comp adj (U.length + 1) U [u] [] (Nat.le_refl _)]
      rcases List.mem_cons.1 hyin with h | h
      · exact Or.inr (Or.inl (by simp [h]))
      · exact Or.inr (Or.inr ⟨h, hy⟩)
    · exact hInv x (List.mem_cons_of_mem _ (ccInner_sub adj _ _ _ _ x hx)) y hyin

theorem ccOuter_complete (adj : Nat → Nat → Bool)
    (Hsym : ∀ a b, adj a b = adj b a) :
    ∀ (fuel : Nat) (U : List Nat), U.length ≤ fuel →
      (∀ x ∈ U, ∀ y, y ∉ U → adj y x = false) →
      ∀ comp ∈ ccOuter adj fuel U, ∀ x ∈ comp, ∀ y,
        Relation.ReflTransGen (fun a b => adj a b = true) x y → y ∈ comp := by
  intro fuel
  induction fuel with
  | zero =>
      intro U hf hInv comp hcomp
      rw [Nat.le_zero, List.length_eq_zero] at hf
      subst hf
      simp [ccOuter] at hcomp
  | succ fuel ih =>
      intro U hf hInv comp hcomp x hx y hxy
      cases U with
      | nil => simp [ccOuter] at hcomp
      | cons u U =>
          simp only [ccOuter] at hcomp
          rcases List.mem_cons.1 hcomp with h | h
          · subst h
            have hux : Relation.ReflTransGen (fun a b => adj a b = true) u x :=
              ccInner_reach adj u (U.length + 1) U [u] [] (Nat.le_refl _) (by simp)
                (fun p hp => by rw [List.mem_singleton.1 hp]) x hx
            exact ccRound_complete adj Hsym u U hInv y (hux.trans hxy)
          · have hf' : (ccInner adj (U.length + 1) U [u] []).1.length ≤ fuel := by
              have h1 := ccInner_fst_length adj (U.length + 1) U [u] []
              simp only [List.length_cons] at hf
              omega
            exact ih _ hf' (ccRound_inv adj u U hInv) comp h x hx y hxy

theorem ccOuter_disjoint (adj : Nat → Nat → Bool) :
    ∀ (fuel : Nat) (U : List Nat), U.Nodup →
      (ccOuter adj fuel U).Pairwise fun c1 c2 => ∀ x, x ∈ c1 → x ∉ c2 := by
  intro fuel
  induction fuel with
  | zero =>
      intro U _
      cases U with
      | nil => simp [ccOuter]
      | cons u U => simp [ccOuter]
  | succ fuel ih =>
      intro U hnd
      cases U with
      | nil => simp [ccOuter]
      | cons u U =>
          simp only [ccOuter]
          refine List.pairwise_cons.2 ⟨?_, ih _ (ccInner_fst_nodup adj _ _ _ _
            (List.nodup_cons.1 hnd).2)⟩
          intro comp' hcomp' x hxhead
          have hxU' : x ∉ (ccInner adj (U.length + 1) U [u] []).1 := by
            have hmem := (ccInner_mem_comp adj (U.length + 1) U [u] []
              (Nat.le_refl _) x).1 hxhead
            rcases hmem with h0 | h1 | ⟨_, hnU⟩
            · simp at h0
            · simp at h1
              subst h1
              intro hmem'
              exact (List.nodup_cons.1 hnd).1 (ccInner_sub adj _ _ _ _ x hmem')
            · exact hnU
          intro hxc'
          exact hxU' (ccOuter_sub adj fuel _ comp' hcomp' x hxc')

/-! ## The incidence index inverts bucket membership -/

theorem getD_set_ne_list (l : List (List Nat)) (i j : Nat) (v : List Nat) (h : i ≠ j) :
    (l.set i v).getD j [] = l.getD j [] := by
  simp only [List.getD_eq_getElem?_getD, List.getElem?_set_ne h]

theorem getD_set_self_list (l : List (List Nat)) (i : Nat) (v : List Nat)
    (h : i < l.length) : (l.set i v).getD i [] = v := by
  simp only [List.getD_eq_getElem?_getD, List.getElem?_set_self h, Option.getD_some]

theorem contains_iff_mem_nat (l : List Nat) (a : Nat) : l.contains a = true ↔ a ∈ l := by
  simp [List.contains_iff_exists_mem_beq]

theorem addBucket_length (i : Nat) (bucket : List Nat) :
    ∀ e2b : List (List Nat), (addBucket e2b i bucket).length = e2b.length := by
  induction bucket with
  | nil => intro e2b; rfl
  | cons a bucket ih =>
      intro e2b
      show (addBucket (e2b.set a (e2b.getD a [] ++ [i])) i bucket).length = _
      rw [ih, List.length_set]

theorem mem_addBucket (i x : Nat) (bucket : List Nat) :
    ∀ (e2b : List (List Nat)) (e : Nat),
      (x ∈ (addBucket e2b i bucket).getD e [] ↔
        x ∈ e2b.getD e [] ∨ (x = i ∧ e ∈ bucket ∧ e < e2b.length)) := by
  induction bucket with
  | nil => intro e2b e; simp [addBucket]
  | cons a bucket ih =>
      intro e2b e
      have hstep : addBucket e2b i (a :: bucket) =
          addBucket (e2b.set a (e2b.getD a [] ++ [i])) i bucket := rfl
      rw [hstep, ih, List.length_set]
      by_cases hea : e = a
      · subst hea
        by_cases hlt : e < e2b.length
        · rw [getD_set_self_list _ _ _ hlt]
          simp [List.mem_append, hlt]
          tauto
        · rw [List.set_eq_of_length_le (Nat.le_of_not_lt hlt)]
          simp [hlt]
      · rw [getD_set_ne_list _ _ _ _ (fun h => hea h.symm)]
        simp only [List.mem_cons, hea, false_or]

theorem mem_buildE2B (x e : Nat) :
    ∀ (rest : List (List Nat)) (e2b : List (List Nat)) (i : Nat),
      (x ∈ (buildE2B e2b i rest).getD e [] ↔
        x ∈ e2b.getD e [] ∨
          ∃ j, j < rest.length ∧ x = i + j ∧ e ∈ rest.getD j [] ∧ e < e2b.length) := by
  intro rest
  induction rest with
  | nil =>
      intro e2b i
      simp [buildE2B]
  | cons bucket rest ih =>
      intro e2b i
      have hstep : buildE2B e2b i (bucket :: rest) =
          buildE2B (addBucket e2b i bucket) (i + 1) rest := rfl
      rw [hstep, ih, mem_addBucket, addBucket_length]
      constructor
      · rintro ((h | ⟨hx, he, hlen⟩) | ⟨j, hj, hx, he, hlen⟩)
        · exact Or.inl h
        · exact Or.inr ⟨0, by simp, by omega, by simpa using he, hlen⟩
        · exact Or.inr ⟨j + 1, by simp; omega, by omega, by simpa using he, hlen⟩
      · rintro (h | ⟨j, hj, hx, he, hlen⟩)
        · exact Or.inl (Or.inl h)
        · match j with
          | 0 =>
              refine Or.inl (Or.inr ⟨by omega, ?_, hlen⟩)
              simpa using he
          | Nat.succ j' =>
              refine Or.inr ⟨j', by simp at hj; omega, by omega, ?_, hlen⟩
              simpa using he

theorem mem_elementToBuckets (n : Nat) (B : List (List Nat)) (e x : Nat) :
    x ∈ (elementToBuckets n B).getD e [] ↔
      x < B.length ∧ e ∈ B.getD x [] ∧ e < n := by
  rw [elementToBuckets, mem_buildE2B]
  have hrep : (List.replicate n ([] : List Nat)).getD e [] = [] := by
    rcases Nat.lt_or_ge e n with h | h
    · simp [List.getD_eq_getElem?_getD, List.getElem?_replicate_of_lt h]
    · simp [List.getD_eq_getElem?_getD, List.getElem?_replicate, Nat.not_lt.2 h]
  rw [hrep, List.length_replicate]
  simp only [List.not_mem_nil, false_or]
  constructor
  · rintro ⟨j, hj, hx, he, hen⟩
    exact ⟨by omega, by rw [show x = j by omega]; exact he, hen⟩
  · rintro ⟨hx, he, hen⟩
    exact ⟨x, hx, by omega, he, hen⟩

/-! ## The traversal's adjacency test is shared-element adjacency -/

theorem bucket_lt_of_mem (B : List (List Nat)) (b e : Nat) (he : e ∈ B.getD b []) :
    b < B.length := by
  by_contra hb
  rw [List.getD_eq_default _ _ (Nat.le_of_not_lt hb)] at he
  exact List.not_mem_nil e he

theorem sharesElem_iff (n : Nat) (B : List (List Nat))
    (Hn : ∀ b x, x ∈ B.getD b [] → x < n) (b1 b2 : Nat) :
    sharesElem B (elementToBuckets n B) b1 b2 = true ↔ BucketAdj B b1 b2 := by
  rw [sharesElem, List.any_eq_true]
  constructor
  · rintro ⟨e, he, hcont⟩
    rw [contains_iff_mem_nat, mem_elementToBuckets] at hcont
    exact ⟨bucket_lt_of_mem B b1 e he, hcont.1, e, he, hcont.2.1⟩
  · rintro ⟨hb1, hb2, e, he1, he2⟩
    exact ⟨e, he1, (contains_iff_mem_nat _ _).2
      ((mem_elementToBuckets n B e b2).2 ⟨hb2, he2, Hn b1 e he1⟩)⟩

theorem bool_eq_of_iff {a b : Bool} (h : a = true ↔ b = true) : a = b := by
  cases a <;> cases b <;> simp_all

theorem bucketAdj_symm (B : List (List Nat)) (b1 b2 : Nat) :
    BucketAdj B b1 b2 ↔ BucketAdj B b2 b1 := by
  constructor <;> rintro ⟨h1, h2, e, he1, he2⟩ <;> exact ⟨h2, h1, e, he2, he1⟩

theorem sharesElem_symm (n : Nat) (B : List (List Nat))
    (Hn : ∀ b x, x ∈ B.getD b [] → x < n) (b1 b2 : Nat) :
    sharesElem B (elementToBuckets n B) b1 b2 =
      sharesElem B (elementToBuckets n B) b2 b1 :=
  bool_eq_of_iff (by rw [sharesElem_iff n B Hn, sharesElem_iff n B Hn,
    bucketAdj_symm])

theorem sharesElem_inv (n : Nat) (B : List (List Nat)) :
    ∀ x ∈ List.range B.length, ∀ y, y ∉ List.range B.length →
      sharesElem B (elementToBuckets n B) y x = false := by
  intro x _ y hy
  rw [sharesElem, List.getD_eq_default _ _ (by simpa using hy)]
  rfl

theorem rtg_iff {r s : Nat → Nat → Prop} (h : ∀ a b, r a b ↔ s a b) (x y : Nat) :
    Relation.ReflTransGen r x y ↔ Relation.ReflTransGen s x y :=
  ⟨Relation.ReflTransGen.mono fun a b hab => (h a b).1 hab,
   Relation.ReflTransGen.mono fun a b hab => (h a b).2 hab⟩

/-! ## Element chains versus bucket chains -/

theorem elemConnected_to_bucketReach (B : List (List Nat)) (e1 e2 : Nat)
    (h : ElemConnected B e1 e2) :
    ∀ b1 b2, b1 < B.length → b2 < B.length → e1 ∈ B.getD b1 [] → e2 ∈ B.getD b2 [] →
      BucketReach B b1 b2 := by
  induction h with
  | refl =>
      intro b1 b2 h1 h2 hm1 hm2
      exact Relation.ReflTransGen.single ⟨h1, h2, e1, hm1, hm2⟩
  | tail hr hs ih =>
      rename_i c e2'
      intro b1 b2 h1 h2 hm1 hm2
      obtain ⟨bc, hbc, hcm, he2m⟩ := hs
      exact Relation.ReflTransGen.tail (ih b1 bc h1 hbc hm1 hcm)
        ⟨hbc, h2, e2', he2m, hm2⟩

theorem bucketReach_to_elemConnected (B : List (List Nat)) (b1 b2 : Nat)
    (h : BucketReach B b1 b2) :
    b1 < B.length → ∀ e1 e2, e1 ∈ B.getD b1 [] → e2 ∈ B.getD b2 [] →
      ElemConnected B e1 e2 := by
  induction h with
  | refl =>
      intro hb1 e1 e2 hm1 hm2
      exact Relation.ReflTransGen.single ⟨b1, hb1, hm1, hm2⟩
  | tail hr hadj ih =>
      rename_i c b2'
      intro hb1 e1 e2 hm1 hm2
      obtain ⟨hc, hb2', x, hxc, hxb2⟩ := hadj
      exact Relation.ReflTransGen.tail (ih hb1 e1 x hm1 hxc) ⟨b2', hb2', hxb2, hm2⟩

/-! ## The connected-components engine is correct (C4) -/

/-- Two buckets end up in one component of the traversal exactly when they
are linked by a chain of shared elements. -/
theorem findCCs_bucket_iff (n : Nat) (B : List (List Nat))
    (Hn : ∀ b x, x ∈ B.getD b [] → x < n) (b1 b2 : Nat)
    (h1 : b1 < B.length) (_h2 : b2 < B.length) :
    (∃ comp ∈ findCCsFromBuckets n B, b1 ∈ comp ∧ b2 ∈ comp) ↔ BucketReach B b1 b2 := by
  have hiff := sharesElem_iff n B Hn
  have hsym := sharesElem_symm n B Hn
  have hrtg : ∀ x y,
      Relation.ReflTransGen (fun a b => sharesElem B (elementToBuckets n B) a b = true)
        x y ↔ BucketReach B x y :=
    fun x y => rtg_iff (fun a b => hiff a b) x y
  unfold findCCsFromBuckets
  constructor
  · rintro ⟨comp, hcomp, hb1, hb2⟩
    obtain ⟨s, hs⟩ := ccOuter_seed_reach _ _ _ comp hcomp
    have hsymR : Symmetric
        (fun a b => sharesElem B (elementToBuckets n B) a b = true) := by
      intro a b hab
      rw [hsym b a]
      exact hab
    exact (hrtg b1 b2).1
      (((Relation.ReflTransGen.symmetric hsymR) (hs b1 hb1)).trans (hs b2 hb2))
  · intro hreach
    obtain ⟨comp, hcomp, hb1c⟩ := ccOuter_cover _ B.length (List.range B.length)
      (by simp) b1 (List.mem_range.2 h1)
    refine ⟨comp, hcomp, hb1c, ?_⟩
    exact ccOuter_complete _ hsym B.length (List.range B.length) (by simp)
      (sharesElem_inv n B) comp hcomp b1 hb1c b2 ((hrtg b1 b2).2 hreach)

/-- **C4**: the components computed by the bucket-centric traversal are
exactly the equivalence classes of shared-bucket connectivity: the
components' element sets are pairwise disjoint, two elements that occur in
buckets lie in a common component iff they are connected by a chain of
shared-bucket relations, and all member elements of any one bucket lie in
one common component («bucket cohesion»). -/
theorem cc_engine_components_iff_shared_bucket_chains (n : Nat) (B : List (List Nat))
    (Hn : ∀ b x, x ∈ B.getD b [] → x < n) :
    ((findCCsFromBuckets n B).Pairwise fun c1 c2 =>
        ∀ e, e ∈ ccElems B c1 → e ∉ ccElems B c2) ∧
      (∀ e1 e2, (∃ b1, e1 ∈ B.getD b1 []) → (∃ b2, e2 ∈ B.getD b2 []) →
        ((∃ comp ∈ findCCsFromBuckets n B,
            e1 ∈ ccElems B comp ∧ e2 ∈ ccElems B comp) ↔
          ElemConnected B e1 e2)) ∧
      (∀ b, b < B.length → ∀ x y, x ∈ B.getD b [] → y ∈ B.getD b [] →
        ∃ comp ∈ findCCsFromBuckets n B, x ∈ ccElems B comp ∧ y ∈ ccElems B comp) := by
  have hiff := sharesElem_iff n B Hn
  have hsym := sharesElem_symm n B Hn
  have hrtg : ∀ x y,
      Relation.ReflTransGen (fun a b => sharesElem B (elementToBuckets n B) a b = true)
        x y ↔ BucketReach B x y :=
    fun x y => rtg_iff (fun a b => hiff a b) x y
  refine ⟨?_, ?_, ?_⟩
  · have hdisj := ccOuter_disjoint (sharesElem B (elementToBuckets n B)) B.length
      (List.range B.length) (List.nodup_range _)
    refine List.Pairwise.imp_of_mem ?_ hdisj
    intro c1 c2 hc1 hc2 hdis e he1 he2
    obtain ⟨b1', hb1c, hm1⟩ := (mem_ccElems B c1 e).1 he1
    obtain ⟨b2', hb2c, hm2⟩ := (mem_ccElems B c2 e).1 he2
    have hlt1 := bucket_lt_of_mem B b1' e hm1
    have hlt2 := bucket_lt_of_mem B b2' e hm2
    have hb2in : b2' ∈ c1 :=
      ccOuter_complete _ hsym B.length (List.range B.length) (by simp)
        (sharesElem_inv n B) c1 hc1 b1' hb1c b2'
        ((hrtg b1' b2').2 (Relation.ReflTransGen.single ⟨hlt1, hlt2, e, hm1, hm2⟩))
    exact hdis b2' hb2in hb2c
  · intro e1 e2 he1 he2
    obtain ⟨b1, hm1⟩ := he1
    obtain ⟨b2, hm2⟩ := he2
    have hlt1 := bucket_lt_of_mem B b1 e1 hm1
    have hlt2 := bucket_lt_of_mem B b2 e2 hm2
    constructor
    · rintro ⟨comp, hcomp, hce1, hce2⟩
      obtain ⟨b1', hb1c, hm1'⟩ := (mem_ccElems B comp e1).1 hce1
      obtain ⟨b2', hb2c, hm2'⟩ := (mem_ccElems B comp e2).1 hce2
      have hreach := (findCCs_bucket_iff n B Hn b1' b2'
        (bucket_lt_of_mem B b1' e1 hm1') (bucket_lt_of_mem B b2' e2 hm2')).1
        ⟨comp, hcomp, hb1c, hb2c⟩
      exact bucketReach_to_elemConnected B b1' b2' hreach
        (bucket_lt_of_mem B b1' e1 hm1') e1 e2 hm1' hm2'
    · intro hconn
      have hreach := elemConnected_to_bucketReach B e1 e2 hconn b1 b2 hlt1 hlt2 hm1 hm2
      obtain ⟨comp, hcomp, hb1c, hb2c⟩ :=
        (findCCs_bucket_iff n B Hn b1 b2 hlt1 hlt2).2 hreach
      exact ⟨comp, hcomp, (mem_ccElems B comp e1).2 ⟨b1, hb1c, hm1⟩,
        (mem_ccElems B comp e2).2 ⟨b2, hb2c, hm2⟩⟩
  · intro b hb x y hx hy
    obtain ⟨comp, hcomp, hbc⟩ := ccOuter_cover _ B.length (List.range B.length)
      (by simp) b (List.mem_range.2 hb)
    exact ⟨comp, hcomp, (mem_ccElems B comp x).2 ⟨b, hbc, hx⟩,
      (mem_ccElems B comp y).2 ⟨b, hbc, hy⟩⟩

theorem cc_engine_components_iff_shared_bucket_chains_witness :
    (∀ b x, x ∈ [[0, 1], [2], [2, 0]].getD b [] → x < 3) ∧
      (((findCCsFromBuckets 3 [[0, 1], [2], [2, 0]]).Pairwise fun c1 c2 =>
          ∀ e, e ∈ ccElems [[0, 1], [2], [2, 0]] c1 →
            e ∉ ccElems [[0, 1], [2], [2, 0]] c2) ∧
        (∀ e1 e2, (∃ b1, e1 ∈ [[0, 1], [2], [2, 0]].getD b1 []) →
          (∃ b2, e2 ∈ [[0, 1], [2], [2, 0]].getD b2 []) →
          ((∃ comp ∈ findCCsFromBuckets 3 [[0, 1], [2], [2, 0]],
              e1 ∈ ccElems [[0, 1], [2], [2, 0]] comp ∧
                e2 ∈ ccElems [[0, 1], [2], [2, 0]] comp) ↔
            ElemConnected [[0, 1], [2], [2, 0]] e1 e2)) ∧
        (∀ b, b < 3 → ∀ x y, x ∈ [[0, 1], [2], [2, 0]].getD b [] →
          y ∈ [[0, 1], [2], [2, 0]].getD b [] →
          ∃ comp ∈ findCCsFromBuckets 3 [[0, 1], [2], [2, 0]],
            x ∈ ccElems [[0, 1], [2], [2, 0]] comp ∧
              y ∈ ccElems [[0, 1], [2], [2, 0]] comp)) :=
  have hn : ∀ b x, x ∈ [[0, 1], [2], [2, 0]].getD b [] → x < 3 := by
    intro b x hx
    match b with
    | 0 => fin_cases hx <;> decide
    | 1 => fin_cases hx; decide
    | 2 => fin_cases hx <;> decide
    | b + 3 => simp [List.getD] at hx
  ⟨hn, by
    have h := cc_engine_components_iff_shared_bucket_chains 3 [[0, 1], [2], [2, 0]] hn
    have hlen : [[0, 1], [2], [2, 0]].length = 3 := rfl
    exact ⟨h.1, h.2.1, hlen ▸ h.2.2⟩⟩

/-! ## Component groups of `detect_communities` (shared by C1, C2, C8) -/

theorem mem_dedupAppend_aux (l : List Nat) (x : Nat) :
    ∀ acc : List Nat,
      (x ∈ l.foldl (fun acc y => if y ∈ acc then acc else acc ++ [y]) acc ↔
        x ∈ acc ∨ x ∈ l) := by
  induction l with
  | nil => intro acc; simp
  | cons a l ih =>
      intro acc
      rw [List.foldl_cons]
      by_cases ha : a ∈ acc
      · rw [if_pos ha, ih acc, List.mem_cons]
        constructor
        · rintro (h | h) <;> tauto
        · rintro (h | h | h)
          · tauto
          · exact Or.inl (h ▸ ha)
          · tauto
      · rw [if_neg ha, ih (acc ++ [a])]
        simp only [List.mem_append, List.mem_cons, List.mem_singleton]
        tauto

theorem mem_dedupAppend (l : List Nat) (x : Nat) : x ∈ dedupAppend l ↔ x ∈ l := by
  rw [dedupAppend, mem_dedupAppend_aux]
  simp

theorem dedupAppend_nodup_aux (l : List Nat) :
    ∀ acc : List Nat, acc.Nodup →
      (l.foldl (fun acc y => if y ∈ acc then acc else acc ++ [y]) acc).Nodup := by
  induction l with
  | nil => intro acc h; exact h
  | cons a l ih =>
      intro acc h
      rw [List.foldl_cons]
      by_cases ha : a ∈ acc
      · rw [if_pos ha]; exact ih acc h
      · rw [if_neg ha]
        refine ih _ ?_
        simp [List.nodup_append, h, ha]

theorem dedupAppend_nodup (l : List Nat) : (dedupAppend l).Nodup :=
  dedupAppend_nodup_aux l [] List.nodup_nil

theorem mem_ccGroup (idToCC : List Nat) (c e : Nat) :
    e ∈ ccGroup idToCC c ↔ e < idToCC.length ∧ idToCC.getD e 0 = c := by
  simp [ccGroup, List.mem_filter, List.mem_range]

theorem ccGroup_nodup (idToCC : List Nat) (c : Nat) : (ccGroup idToCC c).Nodup :=
  (List.nodup_range _).filter _

theorem key_mem_dedup (idToCC : List Nat) (e : Nat) (he : e < idToCC.length) :
    idToCC.getD e 0 ∈ dedupAppend idToCC := by
  rw [mem_dedupAppend, List.getD_eq_getElem?_getD, List.getElem?_eq_getElem he,
    Option.getD_some]
  exact List.getElem_mem he

theorem mem_groupByCC (idToCC : List Nat) (v : List Nat) :
    v ∈ groupByCC idToCC ↔ ∃ c ∈ dedupAppend idToCC, v = ccGroup idToCC c := by
  simp [groupByCC, eq_comm]

theorem buildGraph_names (linear : Bool) (indptr indices : List Nat) (total : Nat)
    (v : List Nat) (x : Nat) (hx : x ∈ (buildGraph linear indptr indices total v).names) :
    x ∈ v ∨ total ≤ x := by
  cases linear with
  | false => exact Or.inl (by simpa [buildGraph] using hx)
  | true =>
      simp only [buildGraph, if_pos, List.mem_append] at hx
      rcases hx with hx | hx
      · exact Or.inl hx
      · rw [mem_dedupAppend, List.mem_map] at hx
        obtain ⟨p, _, hp⟩ := hx
        omega

theorem count_buildGraph_names (linear : Bool) (indptr indices : List Nat) (total : Nat)
    (v : List Nat) (e : Nat) (he : e < total) :
    ((buildGraph linear indptr indices total v).names).count e = v.count e := by
  cases linear with
  | false => rfl
  | true =>
      simp only [buildGraph, if_pos, List.count_append]
      have hzero : (dedupAppend ((v.flatMap fun i =>
          (csrRow indptr indices i).map fun b => (i, b)).map fun p =>
            p.2 + total)).count e = 0 := by
        rw [List.count_eq_zero]
        intro hmem
        rw [mem_dedupAppend, List.mem_map] at hmem
        obtain ⟨p, _, hp⟩ := hmem
        omega
      omega

/-- An element of a detector-returned community (detector output restricted
to graph vertex names) that is a valid element id belongs to the fat
component the graph was built from; in particular its own component group is
fat. -/
theorem fat_output_member (D : CGraph → List (List Nat)) (linear : Bool)
    (idToCC indptr indices : List Nat)
    (hD : ∀ g, ∀ grp ∈ D g, ∀ x ∈ grp, x ∈ g.names)
    (comm : List Nat)
    (hcomm : comm ∈ ((fatCCs idToCC).map fun v =>
      D (buildGraph linear indptr indices idToCC.length v)).flatten)
    (x : Nat) (hx : x ∈ comm) (hxlen : x < idToCC.length) :
    ccGroup idToCC (idToCC.getD x 0) ∈ fatCCs idToCC := by
  rw [List.mem_flatten] at hcomm
  obtain ⟨out, hout, hcm⟩ := hcomm
  rw [List.mem_map] at hout
  obtain ⟨v, hv, rfl⟩ := hout
  have hxnames := hD _ comm hcm x hx
  rcases buildGraph_names linear indptr indices idToCC.length v x hxnames with hxv | hge
  · have hv' : v ∈ groupByCC idToCC := List.mem_of_mem_filter hv
    obtain ⟨c, _, rfl⟩ := (mem_groupByCC _ _).1 hv'
    have hkey := ((mem_ccGroup idToCC c x).1 hxv).2
    rw [hkey]
    exact hv
  · omega

/-- An element of a pair community belongs to its own component group,
which is that pair. -/
theorem pair_member (idToCC : List Nat) (comm : List Nat) (hcomm : comm ∈ pairCCs idToCC)
    (x : Nat) (hx : x ∈ comm) :
    comm = ccGroup idToCC (idToCC.getD x 0) ∧
      ccGroup idToCC (idToCC.getD x 0) ∈ pairCCs idToCC := by
  have hcomm' : comm ∈ groupByCC idToCC := List.mem_of_mem_filter hcomm
  obtain ⟨c, _, rfl⟩ := (mem_groupByCC _ _).1 hcomm'
  have hkey := ((mem_ccGroup idToCC c x).1 hx).2
  rw [hkey]
  exact ⟨rfl, hcomm⟩

/-! ## Size-1 components are dropped (C1) -/

/-- **C1 counterexample**: a single element in a single size-1 component.
`detect_communities` skips size-1 components (`continue`, graph.py lines
189-190), so the communities list is empty: no singleton community `[0]`
(or any community at all) is emitted. -/
theorem singleton_component_missing_from_communities :
    detectCommunitiesRun (fun g => [g.names]) false [0] [0, 0] [] = [] ∧
      ¬ ∃ comm ∈ detectCommunitiesRun (fun g => [g.names]) false [0] [0, 0] [],
          comm = [0] :=
  ⟨by decide, by decide⟩

/-- **C1 amended**: for every connected component of size 1, the communities
stage emits **no** community containing that component's element (the
component is skipped entirely), and no graph construction or detector
invocation occurs for it: the component is in neither the pair list nor the
fat list (whose members are the only ones graphs are built from and the
detector is invoked on).  Hypothesis on the abstract detector: it only
returns vertices of the graph it is given, as igraph clusterings do. -/
theorem singleton_component_dropped (D : CGraph → List (List Nat)) (linear : Bool)
    (idToCC indptr indices : List Nat)
    (hD : ∀ g, ∀ grp ∈ D g, ∀ x ∈ grp, x ∈ g.names)
    (x : Nat) (hx : x < idToCC.length)
    (hsize : (ccGroup idToCC (idToCC.getD x 0)).length = 1) :
    (∀ comm ∈ detectCommunitiesRun D linear idToCC indptr indices, x ∉ comm) ∧
      ccGroup idToCC (idToCC.getD x 0) ∉ pairCCs idToCC ∧
      ccGroup idToCC (idToCC.getD x 0) ∉ fatCCs idToCC := by
  have hnotpair : ccGroup idToCC (idToCC.getD x 0) ∉ pairCCs idToCC := by
    intro hmem
    have hfilt := List.of_mem_filter hmem
    rw [hsize] at hfilt
    simp at hfilt
  have hnotfat : ccGroup idToCC (idToCC.getD x 0) ∉ fatCCs idToCC := by
    intro hmem
    have hfilt := List.of_mem_filter hmem
    rw [hsize] at hfilt
    simp at hfilt
  refine ⟨?_, hnotpair, hnotfat⟩
  intro comm hcomm hxmem
  rw [detectCommunitiesRun, List.mem_append] at hcomm
  rcases hcomm with hcomm | hcomm
  · exact hnotpair (pair_member idToCC comm hcomm x hxmem).2
  · exact hnotfat (fat_output_member D linear idToCC indptr indices hD comm hcomm x hxmem hx)

theorem singleton_component_dropped_witness :
    ((∀ g : CGraph, ∀ grp ∈ [g.names], ∀ x ∈ grp, x ∈ g.names) ∧ 0 < 3 ∧
        (ccGroup [5, 7, 7] ([5, 7, 7].getD 0 0)).length = 1) ∧
      ((∀ comm ∈ detectCommunitiesRun (fun g => [g.names]) false [5, 7, 7] [0, 0, 0, 0]
          [], 0 ∉ comm) ∧
        ccGroup [5, 7, 7] ([5, 7, 7].getD 0 0) ∉ pairCCs [5, 7, 7] ∧
        ccGroup [5, 7, 7] ([5, 7, 7].getD 0 0) ∉ fatCCs [5, 7, 7]) :=
  ⟨⟨fun g grp hgrp x hx => by simpa [List.eq_of_mem_singleton hgrp] using hx,
      by decide, by decide⟩,
    singleton_component_dropped (fun g => [g.names]) false [5, 7, 7] [0, 0, 0, 0] []
      (fun g grp hgrp x hx => by simpa [List.eq_of_mem_singleton hgrp] using hx)
      0 (by decide) (by decide)⟩

/-! ## Size-2 components become pair communities without the detector (C8) -/

/-- **C8**: a connected component of size 2 is emitted as exactly one pair
community: the pair (the component's two element ids) is in the output, the
component is not in the fat list (so no graph is built for it and the
detector is never invoked on it), and each of its elements appears in
exactly one community of the output.  The abstract detector is assumed to
return only vertices of its input graph, as igraph clusterings do. -/
theorem pair_component_emitted (D : CGraph → List (List Nat)) (linear : Bool)
    (idToCC indptr indices : List Nat)
    (hD : ∀ g, ∀ grp ∈ D g, ∀ x ∈ grp, x ∈ g.names)
    (c : Nat) (hc : c ∈ dedupAppend idToCC)
    (hsize : (ccGroup idToCC c).length = 2) :
    ccGroup idToCC c ∈ detectCommunitiesRun D linear idToCC indptr indices ∧
      ccGroup idToCC c ∉ fatCCs idToCC ∧
      ∀ x ∈ ccGroup idToCC c,
        (detectCommunitiesRun D linear idToCC indptr indices).countP
            (fun comm => decide (x ∈ comm)) = 1 := by
  have hpairmem : ccGroup idToCC c ∈ pairCCs idToCC := by
    rw [pairCCs, List.mem_filter]
    exact ⟨(mem_groupByCC _ _).2 ⟨c, hc, rfl⟩, by simp [hsize]⟩
  refine ⟨?_, ?_, ?_⟩
  · rw [detectCommunitiesRun, List.mem_append]
    exact Or.inl hpairmem
  · intro hmem
    have hfilt := List.of_mem_filter hmem
    rw [hsize] at hfilt
    simp at hfilt
  · intro x hxmem
    obtain ⟨hxlen, hxkey⟩ := (mem_ccGroup idToCC c x).1 hxmem
    rw [detectCommunitiesRun, List.countP_append]
    have hfat0 : ((fatCCs idToCC).map fun v =>
        D (buildGraph linear indptr indices idToCC.length v)).flatten.countP
          (fun comm => decide (x ∈ comm)) = 0 := by
      rw [List.countP_eq_zero]
      intro comm hcomm hdec
      have hxin : x ∈ comm := by simpa using hdec
      have hfatmem := fat_output_member D linear idToCC indptr indices hD comm hcomm x
        hxin hxlen
      rw [hxkey] at hfatmem
      have hfilt := List.of_mem_filter hfatmem
      rw [hsize] at hfilt
      simp at hfilt
    rw [hfat0]
    have hpair1 : (pairCCs idToCC).countP (fun comm => decide (x ∈ comm)) = 1 := by
      rw [pairCCs, groupByCC, List.filter_map, List.countP_map]
      have hcong : ((dedupAppend idToCC).filter
            ((fun v => v.length == 2) ∘ ccGroup idToCC)).countP
            ((fun comm => decide (x ∈ comm)) ∘ ccGroup idToCC) =
          ((dedupAppend idToCC).filter
            ((fun v => v.length == 2) ∘ ccGroup idToCC)).countP (fun c' => c' == c) := by
        refine List.countP_congr ?_
        intro c' _
        simp only [Function.comp_apply, decide_eq_true_eq, beq_iff_eq]
        rw [mem_ccGroup]
        constructor
        · rintro ⟨_, hk⟩; rw [← hxkey, hk]
        · rintro rfl; exact ⟨hxlen, hxkey⟩
      rw [hcong]
      have hnd : ((dedupAppend idToCC).filter
          ((fun v => v.length == 2) ∘ ccGroup idToCC)).Nodup :=
        (dedupAppend_nodup idToCC).filter _
      have hcmem : c ∈ (dedupAppend idToCC).filter
          ((fun v => v.length == 2) ∘ ccGroup idToCC) := by
        rw [List.mem_filter]
        exact ⟨hc, by simp [hsize]⟩
      exact List.count_eq_one_of_mem hnd hcmem
    omega

theorem pair_component_emitted_witness :
    ((∀ g : CGraph, ∀ grp ∈ [g.names], ∀ x ∈ grp, x ∈ g.names) ∧
        0 ∈ dedupAppend [0, 0, 1, 1, 1] ∧ (ccGroup [0, 0, 1, 1, 1] 0).length = 2) ∧
      (ccGroup [0, 0, 1, 1, 1] 0 ∈ detectCommunitiesRun (fun g => [g.names]) false
          [0, 0, 1, 1, 1] [0, 0, 0, 0, 0, 0] [] ∧
        ccGroup [0, 0, 1, 1, 1] 0 ∉ fatCCs [0, 0, 1, 1, 1] ∧
        ∀ x ∈ ccGroup [0, 0, 1, 1, 1] 0,
          (detectCommunitiesRun (fun g => [g.names]) false [0, 0, 1, 1, 1]
              [0, 0, 0, 0, 0, 0] []).countP (fun comm => decide (x ∈ comm)) = 1) :=
  ⟨⟨fun g grp hgrp x hx => by simpa [List.eq_of_mem_singleton hgrp] using hx,
      by decide, by decide⟩,
    pair_component_emitted (fun g => [g.names]) false [0, 0, 1, 1, 1] [0, 0, 0, 0, 0, 0]
      [] (fun g grp hgrp x hx => by simpa [List.eq_of_mem_singleton hgrp] using hx)
      0 (by decide) (by decide)⟩

/-! ## The element-partition invariant of the communities stage (C2) -/

/-- **C2 counterexample**: two elements in two size-1 components.  Both are
skipped, the communities list is empty, and element 0 appears in zero
communities — the multiset union of the communities is *not* the element-id
universe. -/
theorem partition_invariant_fails_for_singletons :
    detectCommunitiesRun (fun g => [g.names]) false [0, 1] [0, 0, 0] [] = [] ∧
      ¬ ((detectCommunitiesRun (fun g => [g.names]) false [0, 1] [0, 0, 0]
          []).flatten.count 0 = 1) :=
  ⟨by decide, by decide⟩

theorem sum_single_key (f : Nat → Nat) (k : Nat) :
    ∀ keys : List Nat, keys.Nodup → (∀ c ∈ keys, c ≠ k → f c = 0) →
      (keys.map f).sum = if k ∈ keys then f k else 0 := by
  intro keys
  induction keys with
  | nil => intro _ _; simp
  | cons a keys ih =>
      intro hnd hf
      rw [List.map_cons, List.sum_cons]
      by_cases hak : a = k
      · subst hak
        have hnotin : a ∉ keys := (List.nodup_cons.1 hnd).1
        have hzero : (keys.map f).sum = 0 := by
          refine List.sum_eq_zero fun n hn => ?_
          rw [List.mem_map] at hn
          obtain ⟨c, hc, rfl⟩ := hn
          exact hf c (List.mem_cons_of_mem _ hc)
            (fun h => hnotin (h ▸ hc))
        rw [hzero, if_pos (List.mem_cons_self a keys)]
        omega
      · rw [hf a (List.mem_cons_self a keys) hak, Nat.zero_add,
          ih (List.nodup_cons.1 hnd).2 (fun c hc => hf c (List.mem_cons_of_mem _ hc))]
        by_cases hk : k ∈ keys
        · rw [if_pos hk, if_pos (List.mem_cons_of_mem _ hk)]
        · rw [if_neg hk, if_neg (by
            intro hmem
            rcases List.mem_cons.1 hmem with h | h
            · exact hak h.symm
            · exact hk h)]

/-- **C2 amended**: with the detector returning a partition of its graph's
vertex names (as igraph clusterings are), every element id whose component
has size ≥ 2 appears in exactly one community of the output, and every
element id whose component has size 1 appears in none — the multiset union
of the communities' element ids is exactly the element ids of size-≥2
components, not the whole element-id universe. -/
theorem communities_cover_non_singleton_elements (D : CGraph → List (List Nat))
    (linear : Bool) (idToCC indptr indices : List Nat)
    (hD : ∀ g, ((D g).flatten).Perm g.names)
    (e : Nat) (he : e < idToCC.length) :
    ((detectCommunitiesRun D linear idToCC indptr indices).flatten).count e =
      if 2 ≤ (ccGroup idToCC (idToCC.getD e 0)).length then 1 else 0 := by
  have hek : e ∈ ccGroup idToCC (idToCC.getD e 0) := (mem_ccGroup _ _ _).2 ⟨he, rfl⟩
  have hcount1 : (ccGroup idToCC (idToCC.getD e 0)).count e = 1 :=
    List.count_eq_one_of_mem (ccGroup_nodup _ _) hek
  have hother : ∀ c, c ≠ idToCC.getD e 0 → (ccGroup idToCC c).count e = 0 := by
    intro c hne
    rw [List.count_eq_zero]
    intro hmem
    exact hne ((mem_ccGroup _ _ _).1 hmem).2.symm
  rw [detectCommunitiesRun, List.flatten_append, List.count_append]
  have hpairs : ((pairCCs idToCC).flatten).count e =
      if (ccGroup idToCC (idToCC.getD e 0)).length = 2 then 1 else 0 := by
    rw [List.count_flatten, pairCCs, groupByCC, List.filter_map, List.map_map]
    simp only [Function.comp_def]
    rw [sum_single_key (fun c => (ccGroup idToCC c).count e) (idToCC.getD e 0) _
      ((dedupAppend_nodup idToCC).filter _) (fun c _ hne => hother c hne)]
    by_cases hlen : (ccGroup idToCC (idToCC.getD e 0)).length = 2
    · rw [if_pos hlen, if_pos (List.mem_filter.2 ⟨key_mem_dedup idToCC e he, by
        simp only [beq_iff_eq]
        exact hlen⟩)]
      exact hcount1
    · rw [if_neg hlen, if_neg (fun hmem => hlen (by
        have hfilt := List.of_mem_filter hmem
        simpa only [beq_iff_eq] using hfilt))]
  have count_flatten_flatten : ∀ M : List (List (List Nat)),
      ((M.flatten).flatten).count e = (M.map fun L => (L.flatten).count e).sum := by
    intro M
    induction M with
    | nil => rfl
    | cons L M ih =>
        rw [List.flatten_cons, List.flatten_append, List.count_append, ih,
          List.map_cons, List.sum_cons]
  have hfats : ((((fatCCs idToCC).map fun v =>
      D (buildGraph linear indptr indices idToCC.length v)).flatten).flatten).count e =
      if 3 ≤ (ccGroup idToCC (idToCC.getD e 0)).length then 1 else 0 := by
    rw [count_flatten_flatten, List.map_map]
    have hfun : ∀ v ∈ fatCCs idToCC,
        ((fun L => (List.flatten L).count e) ∘ fun v =>
          D (buildGraph linear indptr indices idToCC.length v)) v = v.count e := by
      intro v _
      have hperm := (hD (buildGraph linear indptr indices idToCC.length v)).count_eq e
      simp only [Function.comp_apply]
      rw [hperm, count_buildGraph_names linear indptr indices idToCC.length v e he]
    rw [List.map_congr_left hfun, fatCCs, groupByCC, List.filter_map, List.map_map]
    simp only [Function.comp_def]
    rw [sum_single_key (fun c => (ccGroup idToCC c).count e) (idToCC.getD e 0) _
      ((dedupAppend_nodup idToCC).filter _) (fun c _ hne => hother c hne)]
    have hlenpos : 1 ≤ (ccGroup idToCC (idToCC.getD e 0)).length :=
      List.length_pos_of_mem hek
    by_cases hlen : 3 ≤ (ccGroup idToCC (idToCC.getD e 0)).length
    · rw [if_pos hlen, if_pos (List.mem_filter.2 ⟨key_mem_dedup idToCC e he, by
        have h1 : (ccGroup idToCC (idToCC.getD e 0)).length ≠ 1 := by omega
        have h2 : (ccGroup idToCC (idToCC.getD e 0)).length ≠ 2 := by omega
        simp only [Bool.not_eq_true', Bool.or_eq_false_iff, beq_eq_false_iff_ne]
        exact ⟨h1, h2⟩⟩)]
      exact hcount1
    · rw [if_neg hlen, if_neg (fun hmem => ?_)]
      have hfilt := List.of_mem_filter hmem
      simp only [Function.comp_apply, Bool.not_eq_true', Bool.or_eq_false_iff,
        beq_eq_false_iff_ne] at hfilt
      omega
  rw [hpairs, hfats]
  have hlenpos : 1 ≤ (ccGroup idToCC (idToCC.getD e 0)).length :=
    List.length_pos_of_mem hek
  split_ifs <;> omega

theorem communities_cover_non_singleton_elements_witness :
    ((∀ g : CGraph, (([g.names] : List (List Nat)).flatten).Perm g.names) ∧ 0 < 5) ∧
      ((detectCommunitiesRun (fun g => [g.names]) false [0, 0, 1, 1, 1]
          [0, 0, 0, 0, 0, 0] []).flatten).count 0 =
        if 2 ≤ (ccGroup [0, 0, 1, 1, 1] ([0, 0, 1, 1, 1].getD 0 0)).length then 1
        else 0 :=
  ⟨⟨fun g => by simp, by decide⟩,
    communities_cover_non_singleton_elements (fun g => [g.names]) false [0, 0, 1, 1, 1]
      [0, 0, 0, 0, 0, 0] [] (fun g => by simp) 0 (by decide)⟩

/-! ## Round-trip of the persisted models (C9) -/

theorem commSlices (cs : List (List Nat)) :
    ∀ (D : List Nat) (pos : Nat), D.drop pos = (cs.flatten).map (fun x => x % 2 ^ 32) →
      ((pos :: commIndptrTail cs pos).zip (commIndptrTail cs pos)).map
          (fun p => (D.drop p.1).take (p.2 - p.1)) =
        cs.map (fun c => c.map fun x => x % 2 ^ 32) := by
  induction cs with
  | nil => intro D pos _; rfl
  | cons c rest ih =>
      intro D pos hD
      have hdrop : D.drop (pos + c.length) =
          (rest.flatten).map (fun x => x % 2 ^ 32) := by
        rw [← List.drop_drop, hD]
        simp [List.flatten_cons, List.drop_left']
      simp only [commIndptrTail, List.zip_cons_cons, List.map_cons, List.map_map]
      refine congrArg₂ _ ?_ ?_
      · rw [hD]
        simp [List.flatten_cons, Nat.add_sub_cancel_left, List.take_left']
      · exact ih D (pos + c.length) hdrop

theorem map_mod_eq_self (l : List Nat) (h : ∀ x ∈ l, x < 2 ^ 32) :
    (l.map fun x => x % 2 ^ 32) = l := by
  induction l with
  | nil => rfl
  | cons a l ih =>
      simp only [List.map_cons, List.cons.injEq]
      exact ⟨Nat.mod_eq_of_lt (h a (List.mem_cons_self a l)),
        ih fun x hx => h x (List.mem_cons_of_mem _ hx)⟩

theorem map_map_mod_eq_self (cs : List (List Nat)) (h : ∀ c ∈ cs, ∀ x ∈ c, x < 2 ^ 32) :
    (cs.map fun c => c.map fun x => x % 2 ^ 32) = cs := by
  induction cs with
  | nil => rfl
  | cons c cs ih =>
      simp only [List.map_cons, List.cons.injEq]
      exact ⟨map_mod_eq_self c (h c (List.mem_cons_self c cs)),
        ih fun c' hc' => h c' (List.mem_cons_of_mem _ hc')⟩

/-- **C9**: serialising and then deserialising a `ConnectedComponentsModel`
restores identical `id_to_cc`, element-key table and incidence matrix, and
serialising then deserialising a `CommunitiesModel` (whose member ids fit
the `uint32` storage) restores identical community membership and element-key
table. -/
theorem models_roundtrip (m1 : CCModelData) (m2 : CommModelData)
    (h : ∀ c ∈ m2.communities, ∀ x ∈ c, x < 2 ^ 32) :
    ccLoadTree (ccGenerateTree m1) = m1 ∧ commLoadTree (commGenerateTree m2) = m2 := by
  constructor
  · rfl
  · cases m2 with
    | mk cs els =>
        have h' : ∀ c ∈ cs, ∀ x ∈ c, x < 2 ^ 32 := h
        have hslices := commSlices cs ((cs.flatten).map fun x => x % 2 ^ 32) 0 (by simp)
        rw [map_map_mod_eq_self cs h'] at hslices
        simp only [commLoadTree, commGenerateTree, split_strings, List.tail_cons,
          CommModelData.mk.injEq, and_true]
        simpa using hslices

/-! ## Bucket building never rejects ungrouped rows (C6) -/

/-- **C6 counterexample**: one hashtable whose band values are not grouped
(1, 2, 1).  The bucket builder of graph.py lines 68-86 has no failure path
at all: the run completes normally, and the two band-1 rows (elements 0 and
2) silently end up in different buckets instead of aborting the run. -/
theorem malformed_input_not_rejected :
    buildBuckets [[⟨"a", 1⟩, ⟨"b", 2⟩, ⟨"c", 1⟩]] =
        ([("a", 0), ("b", 1), ("c", 2)], [[0], [1], [2]]) ∧
      ¬ ∃ bucket ∈ (buildBuckets [[⟨"a", 1⟩, ⟨"b", 2⟩, ⟨"c", 1⟩]]).2,
          0 ∈ bucket ∧ 2 ∈ bucket :=
  ⟨by decide, by decide⟩

/-- **C6 amended**: rows not grouped by band value within a hashtable are
not rejected: the builder is total and simply closes a bucket at every
band-value change, so the pattern `v, w, v` (with `v ≠ w`) yields three
singleton buckets, the two `v`-rows split across two of them, and the run
continues. -/
theorem ungrouped_rows_silently_split (a b c : String) (v w : Nat) (hvw : v ≠ w) :
    ∃ ids e1 e2 e3, buildBuckets [[⟨a, v⟩, ⟨b, w⟩, ⟨c, v⟩]] = (ids, [[e1], [e2], [e3]]) := by
  simp only [buildBuckets, scanHashtable, List.foldl_cons, List.foldl_nil, scanRow]
  simp [hvw, Ne.symm hvw]

theorem ungrouped_rows_silently_split_witness :
    (1 : Nat) ≠ 2 ∧ ∃ ids e1 e2 e3,
      buildBuckets [[⟨"a", 1⟩, ⟨"b", 2⟩, ⟨"c", 1⟩]] = (ids, [[e1], [e2], [e3]]) :=
  ⟨by decide, ungrouped_rows_silently_split "a" "b" "c" 1 2 (by decide)⟩

/-! ## First-seen-wins id assignment (C7) -/

theorem scanRow_ids (st : ScanState) (r : Row) :
    (scanRow st r).ids = (setdefault st.ids r.sha1).2 := by
  unfold scanRow
  by_cases h : some r.value ≠ st.band <;> simp [h]

theorem foldl_scanRow_ids (rows : List Row) :
    ∀ st : ScanState, (rows.foldl scanRow st).ids =
      (rows.map Row.sha1).foldl (fun m k => (setdefault m k).2) st.ids := by
  induction rows with
  | nil => intro st; rfl
  | cons r rows ih =>
      intro st
      rw [List.foldl_cons, List.map_cons, List.foldl_cons, ih, scanRow_ids]

theorem scanHashtable_ids (ids : List (String × Nat)) (B : List (List Nat)) (rows : List Row) :
    (scanHashtable ids B rows).1 =
      (rows.map Row.sha1).foldl (fun m k => (setdefault m k).2) ids := by
  show (List.foldl scanRow ⟨ids, B, none, []⟩ rows).ids = _
  rw [foldl_scanRow_ids]

theorem buildBuckets_ids (hts : List (List Row)) :
    ∀ (ids : List (String × Nat)) (B : List (List Nat)),
      (hts.foldl (fun acc rows => scanHashtable acc.1 acc.2 rows) (ids, B)).1 =
        ((hts.map fun rows => rows.map Row.sha1).flatten).foldl
          (fun m k => (setdefault m k).2) ids := by
  induction hts with
  | nil => intro ids B; rfl
  | cons rows hts ih =>
      intro ids B
      rw [List.foldl_cons, List.map_cons, List.flatten_cons, List.foldl_append, ih,
        scanHashtable_ids]

theorem enumIdsFrom_lookup (k : String) (acc : List String) :
    ∀ i : Nat, (enumIdsFrom i acc).lookup k =
      if k ∈ acc then some (i + acc.indexOf k) else none := by
  induction acc with
  | nil => intro i; rfl
  | cons a acc ih =>
      intro i
      by_cases hak : a = k
      · subst hak
        simp [enumIdsFrom, List.lookup, List.indexOf_cons_self]
      · have hk : (k == a) = false := beq_false_of_ne (Ne.symm hak)
        simp only [enumIdsFrom, List.lookup, hk, ih (i + 1),
          List.indexOf_cons_ne acc hak, List.mem_cons]
        by_cases hmem : k ∈ acc
        · simp only [hmem, if_true, or_true, Nat.succ_eq_add_one]
          congr 1
          omega
        · have hka : ¬ k = a := fun h => hak h.symm
          simp [hmem, hka]

theorem enumIdsFrom_append (acc : List String) (k : String) :
    ∀ i, enumIdsFrom i (acc ++ [k]) = enumIdsFrom i acc ++ [(k, i + acc.length)] := by
  induction acc with
  | nil => intro i; simp [enumIdsFrom]
  | cons a acc ih =>
      intro i
      simp only [List.cons_append, enumIdsFrom, List.append_eq, List.length_cons]
      rw [ih (i + 1)]
      have h : i + 1 + acc.length = i + (acc.length + 1) := by omega
      rw [h]

theorem enumIdsFrom_length (acc : List String) : ∀ i, (enumIdsFrom i acc).length = acc.length := by
  induction acc with
  | nil => intro i; rfl
  | cons a acc ih => intro i; simp [enumIdsFrom, ih]

theorem idsFold_invariant (ks : List String) :
    ∀ acc : List String,
      ks.foldl (fun m k => (setdefault m k).2) (enumIdsFrom 0 acc) =
        enumIdsFrom 0 (ks.foldl (fun a k => if k ∈ a then a else a ++ [k]) acc) := by
  induction ks with
  | nil => intro acc; rfl
  | cons k ks ih =>
      intro acc
      rw [List.foldl_cons, List.foldl_cons]
      by_cases hk : k ∈ acc
      · have : (setdefault (enumIdsFrom 0 acc) k).2 = enumIdsFrom 0 acc := by
          unfold setdefault
          rw [enumIdsFrom_lookup k acc 0]
          simp [hk]
        rw [this, if_pos hk, ih acc]
      · have : (setdefault (enumIdsFrom 0 acc) k).2 = enumIdsFrom 0 (acc ++ [k]) := by
          unfold setdefault
          rw [enumIdsFrom_lookup k acc 0]
          simp only [hk, if_false, enumIdsFrom_append acc k 0, enumIdsFrom_length acc 0]
          simp
        rw [this, if_neg hk, ih (acc ++ [k])]

theorem idsFold_eq (ks : List String) : idsFold ks = enumIdsFrom 0 (firstSeen ks) :=
  idsFold_invariant ks []

theorem firstSeen_extends (q : List String) :
    ∀ acc : List String, ∃ t,
      q.foldl (fun a k => if k ∈ a then a else a ++ [k]) acc = acc ++ t := by
  induction q with
  | nil => intro acc; exact ⟨[], by simp⟩
  | cons k q ih =>
      intro acc
      rw [List.foldl_cons]
      by_cases hk : k ∈ acc
      · rw [if_pos hk]; exact ih acc
      · rw [if_neg hk]
        obtain ⟨t, ht⟩ := ih (acc ++ [k])
        exact ⟨k :: t, by simp [ht]⟩

theorem mem_firstSeen_aux (ks : List String) (k : String) :
    ∀ acc : List String,
      (k ∈ ks.foldl (fun a k => if k ∈ a then a else a ++ [k]) acc ↔ k ∈ acc ∨ k ∈ ks) := by
  induction ks with
  | nil => intro acc; simp
  | cons a ks ih =>
      intro acc
      rw [List.foldl_cons]
      by_cases ha : a ∈ acc
      · rw [if_pos ha, ih acc, List.mem_cons]
        constructor
        · rintro (h | h) <;> tauto
        · rintro (h | h | h)
          · tauto
          · exact Or.inl (h ▸ ha)
          · tauto
      · rw [if_neg ha, ih (acc ++ [a])]
        simp only [List.mem_append, List.mem_cons, List.mem_singleton]
        tauto

theorem mem_firstSeen (ks : List String) (k : String) : k ∈ firstSeen ks ↔ k ∈ ks := by
  rw [firstSeen, mem_firstSeen_aux]
  simp

/-- The id handed out for key `k` when the scan reaches an occurrence of `k`
after prefix `p`: it equals the position of `k` in the global first-seen
order, for every occurrence. -/
theorem setdefault_id_stable (p s : List String) (k : String) :
    (setdefault (idsFold p) k).1 = (firstSeen (p ++ k :: s)).indexOf k := by
  have hsplit : firstSeen (p ++ k :: s) =
      (k :: s).foldl (fun a k => if k ∈ a then a else a ++ [k]) (firstSeen p) := by
    rw [firstSeen, List.foldl_append, firstSeen]
  rw [idsFold_eq]
  unfold setdefault
  rw [enumIdsFrom_lookup k (firstSeen p) 0]
  by_cases hk : k ∈ firstSeen p
  · rw [if_pos hk]
    obtain ⟨t, ht⟩ := firstSeen_extends (k :: s) (firstSeen p)
    rw [hsplit, ht, List.indexOf_append_of_mem hk]
    simp
  · rw [if_neg hk]
    obtain ⟨t, ht⟩ := firstSeen_extends s (firstSeen p ++ [k])
    rw [hsplit, List.foldl_cons, if_neg hk, ht, List.append_assoc,
      List.indexOf_append_of_not_mem hk, enumIdsFrom_length]
    simp [List.indexOf_cons_self]

/-- **C7**: id assignment is one first-seen-wins table shared across all
hashtables: the id table of the whole scan is the `setdefault` fold over the
concatenated key sequence, the id handed out at any occurrence of key `k`
(in whichever hashtable) is `k`'s position in global first-seen order —
hence equal at every occurrence — and the final table maps `k` to that same
id. -/
theorem element_ids_first_seen_wins (hts : List (List Row)) (p s : List String) (k : String)
    (hsplit : keysOf hts = p ++ k :: s) :
    (buildBuckets hts).1 = idsFold (keysOf hts) ∧
      (setdefault (idsFold p) k).1 = (firstSeen (keysOf hts)).indexOf k ∧
      (idsFold (keysOf hts)).lookup k = some ((firstSeen (keysOf hts)).indexOf k) := by
  refine ⟨buildBuckets_ids hts [] [], ?_, ?_⟩
  · rw [hsplit]; exact setdefault_id_stable p s k
  · rw [idsFold_eq, enumIdsFrom_lookup k (firstSeen (keysOf hts)) 0]
    have hmem : k ∈ firstSeen (keysOf hts) := by
      rw [mem_firstSeen, hsplit]
      simp
    rw [if_pos hmem]
    simp

theorem element_ids_first_seen_wins_witness :
    keysOf [[⟨"x", 1⟩, ⟨"y", 1⟩], [⟨"x", 2⟩]] = ["x", "y"] ++ "x" :: [] ∧
      ((buildBuckets [[⟨"x", 1⟩, ⟨"y", 1⟩], [⟨"x", 2⟩]]).1 =
          idsFold (keysOf [[⟨"x", 1⟩, ⟨"y", 1⟩], [⟨"x", 2⟩]]) ∧
        (setdefault (idsFold ["x", "y"]) "x").1 =
          (firstSeen (keysOf [[⟨"x", 1⟩, ⟨"y", 1⟩], [⟨"x", 2⟩]])).indexOf "x" ∧
        (idsFold (keysOf [[⟨"x", 1⟩, ⟨"y", 1⟩], [⟨"x", 2⟩]])).lookup "x" =
          some ((firstSeen (keysOf [[⟨"x", 1⟩, ⟨"y", 1⟩], [⟨"x", 2⟩]])).indexOf "x")) :=
  ⟨by decide, element_ids_first_seen_wins [[⟨"x", 1⟩, ⟨"y", 1⟩], [⟨"x", 2⟩]]
    ["x", "y"] [] "x" (by decide)⟩

theorem models_roundtrip_witness :
    (∀ c ∈ [[3, 1], [0, 4, 2]], ∀ x ∈ c, x < 2 ^ 32) ∧
      (ccLoadTree (ccGenerateTree ⟨[0, 0, 1], ["k", "l", "m"], ⟨[0, 1], [0, 1, 2]⟩⟩) =
          ⟨[0, 0, 1], ["k", "l", "m"], ⟨[0, 1], [0, 1, 2]⟩⟩ ∧
        commLoadTree (commGenerateTree ⟨[[3, 1], [0, 4, 2]], ["k", "l"]⟩) =
          ⟨[[3, 1], [0, 4, 2]], ["k", "l"]⟩) :=
  ⟨by decide,
    models_roundtrip ⟨[0, 0, 1], ["k", "l", "m"], ⟨[0, 1], [0, 1, 2]⟩⟩
      ⟨[[3, 1], [0, 4, 2]], ["k", "l"]⟩ (by decide)⟩

end Gemini
